import Mathlib

/-!
Verification of the `@nuintun/ansi` incremental ANSI parser.

This file gives a shallow embedding of the parser implemented in
`src/index.ts` and `src/utils.ts`: the incremental tokenizer over a
character buffer, the SGR (Select Graphic Rendition) style processor, the
16/256-color palette construction, and the `write` / `flush` session
operations.  JavaScript strings are modelled as `List Char`, JS numbers
reachable in this code as `Int` / `Nat` (with `Option Int` standing for a
possibly-NaN `parseInt` result), and the mutable session as explicit state
passing.  The `write` loop is modelled with explicit fuel, `none` standing
for non-termination of the source loop.

The regular expressions `CSI_RE`, `OSC_RE` and `OSC_ST_RE` live in
`src/regexp.ts`, which is not part of the provided sources; the matchers
`matchCSI`, `findSTAux` / `findSTFrom`, `matchST` and `matchOSC` below are
therefore modelled from the specification (sections 4.1 and 6), as noted
in their doc comments.  Everything else is translated directly from
`src/index.ts` and `src/utils.ts`.
-/

/-- Escape control byte 0x1B, the only escape marker the tokenizer looks for. -/
def escChar : Char := Char.ofNat 27

/-- BEL control byte 0x07, one of the two accepted string terminators. -/
def belChar : Char := Char.ofNat 7

/-- RGB triple as stored in the palettes and styles (`AnsiColor` in `interface.ts`). -/
abbrev AnsiColor := Nat × Nat × Nat

/-- RGB triple as supplied by a caller theme, before conversion to unsigned 8-bit. -/
abbrev IntColor := Int × Int × Int

/-- Rendition state: nine boolean flags plus optional foreground/background colors.
Field order follows the `#style` initializer in `src/index.ts`. -/
structure AnsiStyle where
  dim : Bool
  bold : Bool
  color : Option AnsiColor
  blink : Bool
  hidden : Bool
  italic : Bool
  inverse : Bool
  overline : Bool
  background : Option AnsiColor
  underline : Bool
  strikethrough : Bool
deriving Repr, DecidableEq

/-- Initial style of a fresh session: all flags false, both colors unset. -/
def defaultStyle : AnsiStyle :=
  ⟨false, false, none, false, false, false, false, false, none, false, false⟩

/-- Embedding of `Ansi.#reset` (src/index.ts lines 324-337).  Note that the
source resets `dim`, `bold`, `color`, `blink`, `hidden`, `italic`,
`inverse`, `background`, `underline` and `strikethrough` but does NOT touch
`overline`; the embedding reproduces that. -/
def resetStyle (st : AnsiStyle) : AnsiStyle :=
  { st with
    dim := false
    bold := false
    color := none
    blink := false
    hidden := false
    italic := false
    inverse := false
    background := none
    underline := false
    strikethrough := false }

/-- Embedding of `toUint8` (src/utils.ts lines 7-9): `uint8 & 0xff` in JS.
For any integer argument the JS bitwise AND with 0xff yields the low eight
bits of the integer, i.e. the value modulo 256 (e.g. 300 becomes 44 and -1
becomes 255).  `Int.emod` is non-negative for the positive modulus 256, so
`toNat` is exact. -/
def toUint8 (uint8 : Int) : Nat :=
  (uint8 % 256).toNat

/-- Seed channel values for the 6x6x6 color cube (src/utils.ts line 13). -/
def COLOR_SEEDS : List Nat := [0, 95, 135, 175, 215, 255]

/-- Embedding of `COLORS256_FIXED` (src/utils.ts lines 16-31): the 6x6x6
RGB cube pushed in row-major r,g,b order, followed by the 24-step
grayscale ramp starting at 8 with step 10. -/
def COLORS256_FIXED : List AnsiColor :=
  ((List.range 6).flatMap fun r =>
    (List.range 6).flatMap fun g =>
      (List.range 6).map fun b =>
        (COLOR_SEEDS.getD r 0, COLOR_SEEDS.getD g 0, COLOR_SEEDS.getD b 0)) ++
  (List.range 24).map fun i => (8 + 10 * i, 8 + 10 * i, 8 + 10 * i)

/-- Embedding of `getThemeColor` (src/utils.ts lines 33-41): a supplied
theme color has each channel converted with `toUint8`, otherwise the
default color is used unchanged. -/
def getThemeColor (defaultColor : AnsiColor) (color : Option IntColor) : AnsiColor :=
  match color with
  | some (r, g, b) => (toUint8 r, toUint8 g, toUint8 b)
  | none => defaultColor

/-- Default 16-entry base palette from the `Ansi` constructor
(src/index.ts lines 41-74), in order black, red, green, yellow, blue,
magenta, cyan, white and their bright variants. -/
def colors16Default : List AnsiColor :=
  [(0, 0, 0), (128, 0, 0), (0, 128, 0), (128, 128, 0),
   (0, 0, 128), (128, 0, 128), (0, 128, 128), (192, 192, 192),
   (128, 128, 128), (255, 0, 0), (0, 255, 0), (255, 255, 0),
   (0, 0, 255), (255, 0, 255), (0, 255, 255), (255, 255, 255)]

/-- Embedding of the 256-color table construction in the constructor
(src/index.ts lines 77-87): the base table followed by `COLORS256_FIXED`,
each entry individually overridable through `theme.colors256`. -/
def buildColors256 (colors16 : List AnsiColor) (themeColors256 : List (Option IntColor)) :
    List AnsiColor :=
  ((colors16 ++ COLORS256_FIXED).enum).map fun p =>
    getThemeColor p.2 (themeColors256.getD p.1 none)

/-- Default 256-entry palette: constructor run with an empty theme. -/
def colors256Default : List AnsiColor :=
  buildColors256 colors16Default []

/-- Embedding of JS `signal.split(';')` used in `Ansi.#process`
(src/index.ts line 353); note `[] ↦ [[]]`, matching `''.split(';') = ['']`. -/
def splitSemi : List Char → List (List Char)
  | [] => [[]]
  | c :: t =>
    if c = ';' then [] :: splitSemi t
    else
      match splitSemi t with
      | h :: r => (c :: h) :: r
      | [] => [[c]]

/-- Embedding of JS `parseInt(s, 10)` restricted to the inputs reachable
here (segments of a digits-and-semicolons parameter block, hence digit
strings, possibly empty): the leading digit run is parsed, and `none`
models the NaN result when there is no leading digit. -/
def parseIntOpt (s : List Char) : Option Int :=
  let ds := s.takeWhile Char.isDigit
  if ds = [] then none
  else some (Int.ofNat (ds.foldl (fun acc c => acc * 10 + (c.toNat - 48)) 0))

/-- Body of the `switch (code)` statement of `Ansi.#process`
(src/index.ts lines 365-490).  `i1` is the value of the JS cursor `index`
just after the iteration's `read()` consumed the code; the returned `Nat`
is the number of additional `read()` calls the case performed (0, 1, 2 or
4), so the cursor after the body is `i1 +` that number.  `none` for `code`
models a NaN from `parseInt` on an empty segment, which matches no `case`
label and none of the range tests of the `default` branch.
`toUint8 (v.getD 0)` mirrors `toUint8(read())`: in JS `NaN & 0xff = 0`. -/
def sgrStep (colors16 colors256 : List AnsiColor) (seqs : List (List Char))
    (maxIndex i1 : Nat) (code : Option Int) (st : AnsiStyle) : Nat × AnsiStyle :=
  match code with
  | some 0 => (0, resetStyle st)
  | some 1 => (0, { st with bold := true })
  | some 2 => (0, { st with dim := true })
  | some 3 => (0, { st with italic := true })
  | some 4 => (0, { st with underline := true })
  | some 5 => (0, { st with blink := true })
  | some 7 => (0, { st with inverse := true })
  | some 8 => (0, { st with hidden := true })
  | some 9 => (0, { st with strikethrough := true })
  | some 21 => (0, { st with bold := false })
  | some 22 => (0, { st with dim := false, bold := false })
  | some 23 => (0, { st with italic := false })
  | some 24 => (0, { st with underline := false })
  | some 25 => (0, { st with blink := false })
  | some 27 => (0, { st with inverse := false })
  | some 28 => (0, { st with hidden := false })
  | some 29 => (0, { st with strikethrough := false })
  | some 38 =>
    if i1 < maxIndex then
      let mode := parseIntOpt (seqs.getD i1 [])
      match mode with
      | some 2 =>
        if i1 + 1 + 2 ≤ maxIndex then
          let r := toUint8 ((parseIntOpt (seqs.getD (i1 + 1) [])).getD 0)
          let g := toUint8 ((parseIntOpt (seqs.getD (i1 + 2) [])).getD 0)
          let b := toUint8 ((parseIntOpt (seqs.getD (i1 + 3) [])).getD 0)
          (4, { st with color := some (r, g, b) })
        else (1, st)
      | some 5 =>
        if i1 + 1 ≤ maxIndex then
          let idx := toUint8 ((parseIntOpt (seqs.getD (i1 + 1) [])).getD 0)
          (2, { st with color := some (colors256.getD idx (0, 0, 0)) })
        else (1, st)
      | _ => (1, st)
    else (0, st)
  | some 48 =>
    if i1 < maxIndex then
      let mode := parseIntOpt (seqs.getD i1 [])
      match mode with
      | some 2 =>
        if i1 + 1 + 2 ≤ maxIndex then
          let r := toUint8 ((parseIntOpt (seqs.getD (i1 + 1) [])).getD 0)
          let g := toUint8 ((parseIntOpt (seqs.getD (i1 + 2) [])).getD 0)
          let b := toUint8 ((parseIntOpt (seqs.getD (i1 + 3) [])).getD 0)
          (4, { st with background := some (r, g, b) })
        else (1, st)
      | some 5 =>
        if i1 + 1 ≤ maxIndex then
          let idx := toUint8 ((parseIntOpt (seqs.getD (i1 + 1) [])).getD 0)
          (2, { st with background := some (colors256.getD idx (0, 0, 0)) })
        else (1, st)
      | _ => (1, st)
    else (0, st)
  | some 39 => (0, { st with color := none })
  | some 49 => (0, { st with background := none })
  | some 53 => (0, { st with overline := true })
  | some 55 => (0, { st with overline := false })
  | some n =>
    if 30 ≤ n ∧ n < 38 then (0, { st with color := some (colors16.getD (n - 30).toNat (0, 0, 0)) })
    else if 40 ≤ n ∧ n < 48 then
      (0, { st with background := some (colors16.getD (n - 40).toNat (0, 0, 0)) })
    else if 90 ≤ n ∧ n < 98 then
      (0, { st with color := some (colors16.getD (n - 82).toNat (0, 0, 0)) })
    else if 100 ≤ n ∧ n < 108 then
      (0, { st with background := some (colors16.getD (n - 92).toNat (0, 0, 0)) })
    else (0, st)
  | none => (0, st)

/-- Embedding of the parameter loop of `Ansi.#process` (src/index.ts
lines 344-491).  The JS loop advances the cursor once inside `read()` and
once more in the `for` update, so after a body consuming `extra` further
parameters the next inspected position is `index + 1 + extra + 1`.  The
cursor therefore advances by at least 2 per iteration, so
`sequences.length + 1` fuel (supplied by `process`) is never exhausted. -/
def processLoop (colors16 colors256 : List AnsiColor) (seqs : List (List Char))
    (maxIndex : Nat) : Nat → Nat → AnsiStyle → AnsiStyle
  | 0, _, st => st
  | fuel + 1, index, st =>
    if index ≤ maxIndex then
      let code := parseIntOpt (seqs.getD index [])
      let r := sgrStep colors16 colors256 seqs maxIndex (index + 1) code st
      processLoop colors16 colors256 seqs maxIndex fuel (index + 1 + r.1 + 1) r.2
    else st

/-- Embedding of `Ansi.#process` (src/index.ts lines 344-492): split the
parameter string on semicolons and walk it with the manually advanced
cursor. -/
def process (colors16 colors256 : List AnsiColor) (signal : List Char)
    (st : AnsiStyle) : AnsiStyle :=
  let sequences := splitSemi signal
  processLoop colors16 colors256 sequences (sequences.length - 1)
    (sequences.length + 1) 0 st

/-- Structural split of a list at the first character failing `p`: the
longest prefix satisfying `p` and the remainder (greedy character-class
matching, as a regex engine does). -/
def spanP (p : Char → Bool) : List Char → List Char × List Char
  | [] => ([], [])
  | c :: t =>
    if p c then
      let r := spanP p t
      (c :: r.1, r.2)
    else ([], c :: t)

/-- Parameter-block characters of a CSI sequence: decimal digits and semicolons. -/
def isCsiParamChar (c : Char) : Bool :=
  c.isDigit || c = ';'

/-- Private-mode prefix characters of a CSI sequence, per the specification. -/
def isPrivMode (c : Char) : Bool :=
  c = '!' || c = '<' || c = '>' || c = '?'

/-- Intermediate-modifier range 0x20-0x2f of a CSI sequence. -/
def isIntermediate (c : Char) : Bool :=
  32 ≤ c.toNat && c.toNat ≤ 47

/-- Final command byte range 0x40-0x7e of a CSI sequence. -/
def isCommand (c : Char) : Bool :=
  64 ≤ c.toNat && c.toNat ≤ 126

/-- Result of attempting a CSI match on the buffer content following the
`ESC [` introducer: either the sequence cannot be completed yet, or an
illegal byte was seen (resynchronize by dropping the escape byte), or a
full match with its capture groups (private-mode prefix, parameter block,
intermediate-plus-command text) and total consumed length counted from the
escape byte. -/
inductive CsiMatch where
  | noMatch
  | illegal
  | ok (priv : List Char) (params : List Char) (cmd : List Char) (len : Nat)
deriving Repr, DecidableEq

/-- Modelled from the spec: `CSI_RE` of `src/regexp.ts` is not among the
provided sources.  Following section 4.1, after `ESC [` comes an optional
private-mode character, a block of digits and semicolons, an optional
intermediate modifier (0x20-0x2f) and a final command byte (0x40-0x7e);
a byte that can never extend to a legal completion signals an illegal
sequence, while running out of input means the sequence is conceivably
incomplete.  `rest` is the buffer content after the two introducer
characters; the returned length includes those two characters. -/
def csiTail (priv rest1 : List Char) : CsiMatch :=
  match (spanP isCsiParamChar rest1).2 with
  | [] => CsiMatch.noMatch
  | c :: cs =>
    if isCommand c then
      CsiMatch.ok priv (spanP isCsiParamChar rest1).1 [c]
        (2 + priv.length + (spanP isCsiParamChar rest1).1.length + 1)
    else if isIntermediate c then
      match cs with
      | [] => CsiMatch.noMatch
      | d :: _ =>
        if isCommand d then
          CsiMatch.ok priv (spanP isCsiParamChar rest1).1 [c, d]
            (2 + priv.length + (spanP isCsiParamChar rest1).1.length + 2)
        else CsiMatch.illegal
    else CsiMatch.illegal

/-- Entry point of the CSI match: strip the optional private-mode
character, then delegate to `csiTail` for the parameter block,
intermediate modifier and command byte. -/
def matchCSI (rest : List Char) : CsiMatch :=
  match rest with
  | c :: cs => if isPrivMode c then csiTail [c] cs else csiTail [] (c :: cs)
  | [] => csiTail [] []

/-- Result of one string-terminator scan over the buffer: terminator not
present yet, a disallowed control character seen, or the terminator found
with the absolute index just past it. -/
inductive StScan where
  | notFound
  | illegal
  | found (next : Nat)
deriving Repr, DecidableEq

/-- Modelled from the spec: the string-terminator scan of `OSC_ST_RE` from
`src/regexp.ts` (not among the provided sources).  Per sections 4.1 and the
glossary the terminator is `ESC \` or BEL; any other control character
(codepoint below 0x20 other than BEL and ESC itself) invalidates the
attempt.  `pos` is the absolute index of the head of `l` in the buffer. -/
def findSTAux : List Char → Nat → StScan
  | [], _ => StScan.notFound
  | c :: cs, pos =>
    if c = belChar then StScan.found (pos + 1)
    else if c = escChar then
      match cs with
      | [] => StScan.notFound
      | d :: _ =>
        if d = '\\' then StScan.found (pos + 2)
        else findSTAux cs (pos + 1)
    else if c.toNat < 32 then StScan.illegal
    else findSTAux cs (pos + 1)

/-- Stateful `OSC_ST_RE.exec` search starting at absolute index `start`. -/
def findSTFrom (buffer : List Char) (start : Nat) : StScan :=
  findSTAux (buffer.drop start) start

/-- Modelled from the spec: match one string terminator (`ESC \` or BEL) at
the head of `l`, returning its length and the remaining characters. -/
def matchST : List Char → Option (Nat × List Char)
  | [] => none
  | c :: cs =>
    if c = belChar then some (1, cs)
    else if c = escChar then
      match cs with
      | d :: ds => if d = '\\' then some (2, ds) else none
      | [] => none
    else none

/-- Characters allowed in the hyperlink parameter block: printable ASCII
except the semicolon that ends the block. -/
def isOscParamChar (c : Char) : Bool :=
  32 ≤ c.toNat && c.toNat ≤ 126 && c ≠ ';'

/-- Characters allowed in the hyperlink URL: printable ASCII except space. -/
def isUrlChar (c : Char) : Bool :=
  33 ≤ c.toNat && c.toNat ≤ 126

/-- Characters allowed in the link text: printable ASCII. -/
def isTextChar (c : Char) : Bool :=
  32 ≤ c.toNat && c.toNat ≤ 126

/-- Modelled from the spec: the closing `ESC ] 8 ; ;` of a hyperlink
followed by a string terminator; returns the consumed length. -/
def oscClose (rest5 : List Char) : Option Nat :=
  if rest5.take 5 = [escChar, ']', '8', ';', ';'] then
    match matchST (rest5.drop 5) with
    | some (stLen2, _) => some (5 + stLen2)
    | none => none
  else none

/-- Modelled from the spec: the link-text stage of the hyperlink match —
a non-empty run of printable characters followed by the closing
`ESC ] 8 ; ; <ST>`; returns the text capture and the length consumed from
this stage on. -/
def oscText (rest4 : List Char) : Option (List Char × Nat) :=
  if (spanP isTextChar rest4).1 = [] then none
  else
    match oscClose (spanP isTextChar rest4).2 with
    | some cl => some ((spanP isTextChar rest4).1, (spanP isTextChar rest4).1.length + cl)
    | none => none

/-- Modelled from the spec: the URL stage of the hyperlink match — a run
of printable non-space characters, a string terminator, then the text
stage; returns the URL capture, the text capture and the length consumed
from this stage on. -/
def oscUrl (rest2 : List Char) : Option (List Char × List Char × Nat) :=
  match matchST (spanP isUrlChar rest2).2 with
  | some (stLen1, rest4) =>
    match oscText rest4 with
    | some (t, tl) =>
      some ((spanP isUrlChar rest2).1, t, (spanP isUrlChar rest2).1.length + stLen1 + tl)
    | none => none
  | none => none

/-- Modelled from the spec: `OSC_RE` of `src/regexp.ts` is not among the
provided sources.  Per sections 4.1 and 6, the hyperlink wire form is
`ESC ] 8 ; <params> ; <url> <ST> <text> ESC ] 8 ; ; <ST>` with non-empty
text; on success the URL capture, the text capture and the total matched
length are returned.  The match is staged: introducer and parameter block
here, then `oscUrl`, `oscText` and `oscClose`. -/
def matchOSC (buffer : List Char) : Option (List Char × List Char × Nat) :=
  match buffer with
  | e :: rb :: c8 :: s1 :: rest =>
    if e = escChar ∧ rb = ']' ∧ c8 = '8' ∧ s1 = ';' then
      match (spanP isOscParamChar rest).2 with
      | c :: rest2 =>
        if c = ';' then
          match oscUrl rest2 with
          | some (u, t, l) => some (u, t, 4 + (spanP isOscParamChar rest).1.length + 1 + l)
          | none => none
        else none
      | [] => none
    else none
  | _ => none

/-- Token variants produced by one tokenizer step (`TokenType` of
`src/enum.ts`, reconstructed from its uses in `src/index.ts`). -/
inductive AnsiToken where
  | EOS
  | TEXT (value : List Char)
  | INCESC
  | ESC
  | UNKNOWN
  | SGR (signal : List Char)
  | OSC (url : List Char) (value : List Char)
deriving Repr, DecidableEq

/-- Embedding of JS `buffer.indexOf('\x1B')` (src/index.ts line 111),
returning the index of the first escape byte if any. -/
def escIdx : List Char → Option Nat
  | [] => none
  | c :: t => if c = escChar then some 0 else (escIdx t).map (· + 1)

/-- Embedding of `Ansi.#read` (src/index.ts lines 99-318) as a pure
function from the buffer to the produced token and the number of consumed
characters; every `this.#buffer = buffer.slice(k)` of the source
corresponds to consumed count `k`, and the branches that leave the buffer
untouched consume 0. -/
def readStep (buffer : List Char) : AnsiToken × Nat :=
  if buffer.length = 0 then (AnsiToken.EOS, 0)
  else
    match escIdx buffer with
    | none => (AnsiToken.TEXT buffer, buffer.length)
    | some pos =>
      if 0 < pos then (AnsiToken.TEXT (buffer.take pos), pos)
      else if buffer.length < 3 then (AnsiToken.INCESC, 0)
      else
        let peek := buffer.getD 1 escChar
        if peek ≠ '[' ∧ peek ≠ ']' ∧ peek ≠ '(' then (AnsiToken.ESC, 1)
        else if peek = '[' then
          match matchCSI (buffer.drop 2) with
          | CsiMatch.noMatch => (AnsiToken.INCESC, 0)
          | CsiMatch.illegal => (AnsiToken.ESC, 1)
          | CsiMatch.ok priv params cmd len =>
            if priv ≠ [] ∨ cmd ≠ ['m'] then (AnsiToken.UNKNOWN, len)
            else (AnsiToken.SGR params, len)
        else if peek = ']' then
          if buffer.length < 4 then (AnsiToken.INCESC, 0)
          else if buffer.getD 2 escChar ≠ '8' ∨ buffer.getD 3 escChar ≠ ';' then
            (AnsiToken.ESC, 1)
          else
            match findSTFrom buffer 0 with
            | StScan.illegal => (AnsiToken.ESC, 1)
            | StScan.notFound => (AnsiToken.INCESC, 0)
            | StScan.found n1 =>
              match findSTFrom buffer n1 with
              | StScan.illegal => (AnsiToken.ESC, 1)
              | StScan.notFound => (AnsiToken.INCESC, 0)
              | StScan.found _ =>
                match matchOSC buffer with
                | none => (AnsiToken.ESC, 1)
                | some (url, text, len) => (AnsiToken.OSC url text, len)
        else (AnsiToken.EOS, 0)

/-- Tokenizer step as token plus updated buffer, matching the side effect
of `Ansi.#read` on `this.#buffer` (named `readToken` because `read` is
taken by the Lean core library). -/
def readToken (buffer : List Char) : AnsiToken × List Char :=
  ((readStep buffer).1, buffer.drop (readStep buffer).2)

/-- Emitted block: text value, snapshot of the style, optional hyperlink
URL (`AnsiBlock` of `interface.ts` as used by `Ansi.#block`). -/
structure AnsiBlock where
  value : List Char
  style : AnsiStyle
  url : Option (List Char)
deriving Repr, DecidableEq

/-- Session state of the `Ansi` class: pending buffer, current style and
the two palettes built by the constructor. -/
structure Ansi where
  buffer : List Char
  style : AnsiStyle
  colors16 : List AnsiColor
  colors256 : List AnsiColor
deriving Repr, DecidableEq

/-- Fresh session with an empty theme. -/
def mkAnsi : Ansi :=
  ⟨[], defaultStyle, colors16Default, colors256Default⟩

/-- Embedding of the `while (this.#buffer)` loop of `Ansi.write`
(src/index.ts lines 522-542) with explicit fuel; `none` models
non-termination.  Note the faithful control flow of the source: the
`break` of the `EOS` and `INCESC` cases exits only the `switch`, after
which the `while` re-checks the unchanged buffer, i.e. the loop recurses
on the same state; `ESC` and `UNKNOWN` tokens are discarded, `SGR` updates
the style, and `TEXT` / `OSC` emit a block carrying a snapshot of the
current style (`Ansi.#block`, lines 500-511). -/
def writeLoopF (fuel : Nat) (a : Ansi) : Option (Ansi × List AnsiBlock) :=
  match fuel with
  | 0 => none
  | fuel + 1 =>
    if a.buffer = [] then some (a, [])
    else
      match readToken a.buffer with
      | (AnsiToken.EOS, b) => writeLoopF fuel { a with buffer := b }
      | (AnsiToken.INCESC, b) => writeLoopF fuel { a with buffer := b }
      | (AnsiToken.ESC, b) => writeLoopF fuel { a with buffer := b }
      | (AnsiToken.UNKNOWN, b) => writeLoopF fuel { a with buffer := b }
      | (AnsiToken.SGR signal, b) =>
        writeLoopF fuel
          { a with buffer := b, style := process a.colors16 a.colors256 signal a.style }
      | (AnsiToken.TEXT v, b) =>
        (writeLoopF fuel { a with buffer := b }).map fun p =>
          (p.1, ⟨v, a.style, none⟩ :: p.2)
      | (AnsiToken.OSC url v, b) =>
        (writeLoopF fuel { a with buffer := b }).map fun p =>
          (p.1, ⟨v, a.style, some url⟩ :: p.2)

/-- Embedding of `Ansi.write` (src/index.ts lines 519-543): append the
text to the buffer and run the loop.  A run that returns `some` consumes
at least one character per iteration, so `length + 1` fuel is exact:
`write` returns `none` exactly when the source loop never terminates. -/
def write (a : Ansi) (text : List Char) : Option (Ansi × List AnsiBlock) :=
  writeLoopF (a.buffer.length + text.length + 1) { a with buffer := a.buffer ++ text }

/-- Embedding of `Ansi.flush` (src/index.ts lines 550-568): emit the
pending buffer, if non-empty, as one plain-text block with the current
style, then reset the style (via `Ansi.#reset`) and clear the buffer. -/
def flush (a : Ansi) : Ansi × List AnsiBlock :=
  let blocks := if a.buffer = [] then ([] : List AnsiBlock) else [⟨a.buffer, a.style, none⟩]
  ({ a with buffer := [], style := resetStyle a.style }, blocks)

/-- Per-character expansion of a block sequence: each block contributes
its characters, every one paired with the block's style and URL.  Two
block sequences with the same expansion deliver the same styled text and
differ only in how consecutive characters are grouped into blocks. -/
def render (blocks : List AnsiBlock) : List (Char × AnsiStyle × Option (List Char)) :=
  blocks.flatMap fun b => b.value.map fun c => (c, b.style, b.url)

/-- Modelled from the spec (claim comparison formula): the documented
256-color construction — indices 0-15 the base colors, 16-231 the 6x6x6
cube with channel seeds selected by the base-6 digits of the offset from
16, 232-255 the grayscale ramp `8 + 10 * (i - 232)`. -/
def specPalette256 (i : Nat) : AnsiColor :=
  if i < 16 then colors16Default.getD i (0, 0, 0)
  else if i ≤ 231 then
    (COLOR_SEEDS.getD ((i - 16) / 36) 0,
     COLOR_SEEDS.getD ((i - 16) / 6 % 6) 0,
     COLOR_SEEDS.getD ((i - 16) % 6) 0)
  else (8 + 10 * (i - 232), 8 + 10 * (i - 232), 8 + 10 * (i - 232))


/-! ## Basic tokenizer-step lemmas -/

/-- Branch analysis of `readStep`: the `incomplete` and `end-of-buffer`
results consume zero characters. -/
theorem readStep_zero_of_wait (b : List Char) :
    ((readStep b).1 = AnsiToken.INCESC ∨ (readStep b).1 = AnsiToken.EOS) →
      (readStep b).2 = 0 := by
  simp only [readStep]
  repeat' split
  all_goals simp_all

/-- The write loop never terminates once the tokenizer answers
`incomplete` (or the defensive `end-of-buffer`) on a non-empty buffer: the
`break` of those `switch` cases exits only the `switch`, the buffer is
unchanged, and the `while` spins. -/
theorem writeLoopF_stuck (f : Nat) (a : Ansi) (hne : a.buffer ≠ [])
    (h : (readStep a.buffer).1 = AnsiToken.INCESC ∨ (readStep a.buffer).1 = AnsiToken.EOS) :
    writeLoopF f a = none := by
  induction f with
  | zero => rfl
  | succ n ih =>
    have hk : (readStep a.buffer).2 = 0 := readStep_zero_of_wait _ h
    have hread : readToken a.buffer = ((readStep a.buffer).1, a.buffer) := by
      simp [readToken, hk]
    have ha : { a with buffer := a.buffer } = a := by cases a; rfl
    rcases h with h | h <;>
      · unfold writeLoopF
        rw [if_neg hne, hread, h]
        dsimp only
        rw [ha]
        exact ih

/-! ## Claim C1 — termination of `write` -/

/-- C1: the claim states that `write` always terminates; in fact the code
does not.  On the failing input `"\x1B"` (a lone escape byte) the
tokenizer returns `incomplete` without touching the buffer, the `break` of
that `switch` case exits only the `switch`, and the `while` loop re-reads
the unchanged buffer forever: the loop has no terminating run at any fuel,
so `write` diverges instead of returning. -/
theorem ansi_c1_write_esc_diverges :
    write mkAnsi [escChar] = none ∧
      ∀ fuel, writeLoopF fuel ⟨[escChar], defaultStyle, colors16Default, colors256Default⟩ =
        none := by
  constructor
  · exact writeLoopF_stuck _ _ (by decide) (Or.inl (by decide))
  · intro fuel
    exact writeLoopF_stuck _ _ (by decide) (Or.inl (by decide))

/-! ## Claim C2 — SGR code 0 -/

/-- C2: the claim states that SGR code 0 resets all nine flags including
`overline`; in fact `Ansi.#reset` never touches `overline`, so processing
the parameter string `"0"` on a style whose only deviation is
`overline := true` returns that style unchanged, which differs from the
all-defaults style. -/
theorem ansi_c2_sgr0_keeps_overline :
    process colors16Default colors256Default (String.toList "0")
        { defaultStyle with overline := true } =
      { defaultStyle with overline := true } ∧
    ({ defaultStyle with overline := true } : AnsiStyle) ≠ defaultStyle := by
  constructor
  · rfl
  · decide

/-! ## Claim C4 — empty SGR parameter segments -/

/-- C4 counterexample: the claim states that the empty parameter string
(from `ESC [ m`) applies code 0, i.e. a full reset; in fact
`parseInt('')` is NaN, which matches no `switch` case, so a style with
`bold := true` keeps it. -/
theorem ansi_c4_empty_not_reset :
    process colors16Default colors256Default (String.toList "")
        { defaultStyle with bold := true } =
      { defaultStyle with bold := true } ∧
    ({ defaultStyle with bold := true } : AnsiStyle) ≠ defaultStyle := by
  refine ⟨rfl, by decide⟩

/-- C4 as amended: an empty segment parses as NaN (modelled `none`), not
as the integer 0; it matches no case and changes nothing.  The empty
parameter string is a complete no-op, and for `";1"` the leading empty
segment performs no reset — moreover the loop's double cursor advance
then skips the following `"1"` as well, so the whole signal is a no-op. -/
theorem ansi_c4_amended (c16 c256 : List AnsiColor) (st : AnsiStyle) :
    parseIntOpt [] = none ∧
    process c16 c256 (String.toList "") st = st ∧
    process c16 c256 (String.toList ";1") st = st :=
  ⟨rfl, rfl, rfl⟩

/-! ## Claim C5 — extended-color channel conversion -/

/-- C5 counterexample: the claim states each truecolor channel above 255
is clamped to 255; in fact `toUint8` is a bitwise AND with 0xff, so the
parameter 300 in `38;2;300;0;0` is stored as 44, not 255. -/
theorem ansi_c5_not_clamped :
    toUint8 300 = 44 ∧ (44 : Nat) ≠ 255 ∧
    (process colors16Default colors256Default (String.toList "38;2;300;0;0")
        defaultStyle).color = some (44, 0, 0) := by
  refine ⟨rfl, by decide, rfl⟩

/-- C5 as amended: each channel — an SGR mode-2 parameter or a
caller-supplied theme channel — is reduced modulo 256 (the low eight bits,
`x & 0xff`), not clamped: the result is always below 256, values above 255
wrap around (300 becomes 44), and negative values wrap from above
(-1 becomes 255). -/
theorem ansi_c5_amended :
    (∀ x : Int, (toUint8 x : Int) = x % 256 ∧ toUint8 x < 256) ∧
    (∀ (dc : AnsiColor) (r g b : Int),
      getThemeColor dc (some (r, g, b)) = (toUint8 r, toUint8 g, toUint8 b)) ∧
    toUint8 (-1) = 255 := by
  refine ⟨fun x => ⟨?_, ?_⟩, fun dc r g b => rfl, by decide⟩
  · exact Int.toNat_of_nonneg (Int.emod_nonneg x (by norm_num))
  · have h1 := Int.emod_nonneg x (show (256 : Int) ≠ 0 by norm_num)
    have h2 := Int.emod_lt_of_pos x (show (0 : Int) < 256 by norm_num)
    unfold toUint8
    omega

/-! ## Claim C6 — flush -/

/-- C6: the claim states that after any `flush` the style equals
all-defaults; in fact `flush` resets through `Ansi.#reset`, which never
touches `overline`.  On a session with empty buffer and
`overline := true`, `flush` emits nothing (that part of the claim holds)
but leaves the style different from all-defaults. -/
theorem ansi_c6_flush_keeps_overline :
    (flush ⟨[], { defaultStyle with overline := true },
        colors16Default, colors256Default⟩).2 = [] ∧
    (flush ⟨[], { defaultStyle with overline := true },
        colors16Default, colors256Default⟩).1.style =
      { defaultStyle with overline := true } ∧
    ({ defaultStyle with overline := true } : AnsiStyle) ≠ defaultStyle := by
  refine ⟨rfl, rfl, by decide⟩

/-! ## Claim C7 — default 256-color palette -/

set_option maxRecDepth 10000 in
/-- Decidable sweep of the palette against the documented formula. -/
theorem colors256Default_matches_formula :
    ((List.range 256).all fun i =>
      decide (colors256Default.getD i (0, 0, 0) = specPalette256 i)) = true := by
  decide

/-- C7: with no theme overrides, every entry of the 256-color palette
equals the documented construction formula: the 16 base colors, the 6x6x6
cube selected by the base-6 digits of `i - 16` over the seeds
`{0, 95, 135, 175, 215, 255}`, and the grayscale ramp `8 + 10 * (i - 232)`. -/
theorem ansi_c7_palette (i : Nat) (h : i < 256) :
    colors256Default.getD i (0, 0, 0) = specPalette256 i := by
  have hall := colors256Default_matches_formula
  rw [List.all_eq_true] at hall
  exact of_decide_eq_true (hall i (List.mem_range.mpr h))

/-- C7 witness at index 100 (inside the 6x6x6 cube). -/
theorem ansi_c7_palette_witness :
    (100 : Nat) < 256 ∧ colors256Default.getD 100 (0, 0, 0) = specPalette256 100 :=
  ⟨by decide, ansi_c7_palette 100 (by decide)⟩

/-! ## Claim C8 — hyperlink round trip -/

/-- C8: writing the complete hyperlink sequence
`ESC ] 8 ; ; https://example.com ST link text ESC ] 8 ; ; ST` (with
`ESC \` as string terminator) to a fresh session emits exactly one block
whose value is `"link text"` and whose URL is `"https://example.com"`,
and drains the buffer. -/
theorem ansi_c8_hyperlink :
    (write mkAnsi
        (String.toList "\x1B]8;;https://example.com\x1B\\link text\x1B]8;;\x1B\\")).map
        (fun p => (p.1.buffer, p.1.style, p.2)) =
      some ([], defaultStyle,
        [⟨String.toList "link text", defaultStyle,
          some (String.toList "https://example.com")⟩]) := by
  rfl

/-! ## Claim C9 — the bold-red scenario -/

/-- C9: the claim states `write("\x1B[1;31mHello\x1B[0m World")` yields
`"Hello"` in bold red; in fact the parameter loop advances the cursor both
inside `read()` and in the `for` update, so after consuming code `1` it
skips `31` entirely: the code emits `"Hello"` with `bold := true` but NO
foreground color, then `" World"` with all defaults. -/
theorem ansi_c9_param31_skipped :
    (write mkAnsi (String.toList "\x1B[1;31mHello\x1B[0m World")).map
        (fun p => (p.1.buffer, p.2)) =
      some ([],
        [⟨String.toList "Hello", { defaultStyle with bold := true }, none⟩,
         ⟨String.toList " World", defaultStyle, none⟩]) ∧
    ({ defaultStyle with bold := true } : AnsiStyle).color = none := by
  refine ⟨rfl, rfl⟩

/-! ## Claim C10 — tokenizer consumes only a prefix -/

/-- C10: every tokenizer step removes only a consumed prefix — the buffer
afterwards is a suffix of the buffer before — and the `incomplete` and
`end-of-buffer` results leave the buffer completely unchanged. -/
theorem ansi_c10_read_suffix (b : List Char) :
    (readToken b).2 <:+ b ∧
    (((readToken b).1 = AnsiToken.INCESC ∨ (readToken b).1 = AnsiToken.EOS) →
      (readToken b).2 = b) := by
  constructor
  · exact List.drop_suffix _ _
  · intro h
    have hk : (readStep b).2 = 0 := readStep_zero_of_wait b h
    simp [readToken, hk]

/-- C10 witness: on the buffer `"\x1B"` the step answers `incomplete` and
leaves the buffer untouched (and a suffix of itself). -/
theorem ansi_c10_read_suffix_witness :
    (readToken [escChar]).2 <:+ [escChar] ∧ (readToken [escChar]).2 = [escChar] :=
  ⟨(ansi_c10_read_suffix [escChar]).1,
   (ansi_c10_read_suffix [escChar]).2 (Or.inl (by decide))⟩

/-! ## Claim C3 — chunk-boundary independence -/

/-- C3 counterexample: the claim demands the identical ordered block
sequence — in particular the same number of blocks — for any split.  The
input `"ab"` split at offset 1 yields two one-character text blocks, while
the single write yields one two-character block. -/
theorem ansi_c3_split_changes_blocks :
    ((write mkAnsi (String.toList "ab")).map fun p => p.2.length) = some 1 ∧
    ((write mkAnsi (String.toList "a")).bind fun p =>
      (write p.1 (String.toList "b")).map fun q => (p.2 ++ q.2).length) = some 2 ∧
    (1 : Nat) ≠ 2 := by
  refine ⟨rfl, rfl, by decide⟩

/-! ## Helper lemmas for chunk-boundary analysis: spanP and escIdx -/

/-- Appending more input does not change a span whose remainder is
non-empty: the stopping character is already present. -/
theorem spanP_append_of_rest_ne_nil (p : Char → Bool) (l e : List Char)
    (h : (spanP p l).2 ≠ []) :
    spanP p (l ++ e) = ((spanP p l).1, (spanP p l).2 ++ e) := by
  induction l with
  | nil => simp [spanP] at h
  | cons c t ih =>
    by_cases hp : p c
    · simp only [spanP, hp, if_true] at h ⊢
      simp only [List.append_eq]
      rw [ih h]
    · simp [spanP, hp]

/-- A span decomposes its input. -/
theorem spanP_decomp (p : Char → Bool) (l : List Char) :
    (spanP p l).1 ++ (spanP p l).2 = l := by
  induction l with
  | nil => rfl
  | cons c t ih =>
    by_cases hp : p c <;> simp [spanP, hp, ih]

/-- Every character of the span prefix satisfies the predicate. -/
theorem spanP_fst_all (p : Char → Bool) (l : List Char) :
    ∀ c ∈ (spanP p l).1, p c = true := by
  induction l with
  | nil => simp [spanP]
  | cons c t ih =>
    by_cases hp : p c
    · simp only [spanP, hp, if_true]
      intro x hx
      rcases List.mem_cons.mp hx with hx | hx
      · exact hx ▸ hp
      · exact ih x hx
    · simp [spanP, hp]

/-- If the span remainder is empty then the whole input satisfies the
predicate. -/
theorem spanP_all_of_rest_nil (p : Char → Bool) (l : List Char)
    (h : (spanP p l).2 = []) : ∀ c ∈ l, p c = true := by
  intro c hc
  have hd := spanP_decomp p l
  rw [h, List.append_nil] at hd
  refine spanP_fst_all p l c ?_
  rw [hd]
  exact hc

/-- Lengths of the two span parts add to the input length. -/
theorem spanP_length (p : Char → Bool) (l : List Char) :
    (spanP p l).1.length + (spanP p l).2.length = l.length := by
  have := congrArg List.length (spanP_decomp p l)
  simpa using this

/-- Unfolding: a buffer headed by the escape byte has first escape position 0. -/
theorem escIdx_cons_esc (t : List Char) : escIdx (escChar :: t) = some 0 := by
  simp [escIdx]

/-- Unfolding: a buffer headed by another character shifts the search by one. -/
theorem escIdx_cons_ne (c : Char) (t : List Char) (h : ¬c = escChar) :
    escIdx (c :: t) = (escIdx t).map (· + 1) := by
  simp [escIdx, h]

/-- Appending to a list that contains an escape byte does not change its
first position. -/
theorem escIdx_append_of_some (l e : List Char) (i : Nat) (h : escIdx l = some i) :
    escIdx (l ++ e) = some i := by
  induction l generalizing i with
  | nil => simp [escIdx] at h
  | cons c t ih =>
    by_cases hc : c = escChar
    · subst hc
      rw [escIdx_cons_esc] at h
      rw [List.cons_append, escIdx_cons_esc]
      exact h
    · rw [escIdx_cons_ne c t hc] at h
      rw [List.cons_append, escIdx_cons_ne c _ hc]
      rcases hi : escIdx t with _ | j
      · rw [hi] at h
        simp at h
      · rw [hi] at h
        rw [ih j hi]
        exact h

/-- Position of the first escape byte in an appended buffer whose first
part has none. -/
theorem escIdx_append_of_none (l e : List Char) (h : escIdx l = none) :
    escIdx (l ++ e) = (escIdx e).map (· + l.length) := by
  induction l with
  | nil => simp
  | cons c t ih =>
    by_cases hc : c = escChar
    · subst hc
      rw [escIdx_cons_esc] at h
      simp at h
    · rw [escIdx_cons_ne c t hc] at h
      rw [List.cons_append, escIdx_cons_ne c _ hc]
      rcases hi : escIdx t with _ | j
      · rw [ih hi]
        rcases escIdx e with _ | k
        · simp
        · simp only [Option.map_some', Option.some.injEq, List.length_cons]
          omega
      · rw [hi] at h
        simp at h

/-- The first escape position is inside the list. -/
theorem escIdx_lt_length (l : List Char) (i : Nat) (h : escIdx l = some i) :
    i < l.length := by
  induction l generalizing i with
  | nil => simp [escIdx] at h
  | cons c t ih =>
    by_cases hc : c = escChar
    · subst hc
      rw [escIdx_cons_esc] at h
      have : i = 0 := (Option.some.inj h).symm
      simp [this, List.length_cons]
    · rw [escIdx_cons_ne c t hc] at h
      rcases hi : escIdx t with _ | j
      · rw [hi] at h
        simp at h
      · rw [hi] at h
        simp only [Option.map_some', Option.some.injEq] at h
        have := ih j hi
        simp only [List.length_cons]
        omega

/-- A list with first escape position zero starts with the escape byte. -/
theorem escIdx_zero_head (c : Char) (t : List Char) (h : escIdx (c :: t) = some 0) :
    c = escChar := by
  by_cases hc : c = escChar
  · exact hc
  · exfalso
    rw [escIdx_cons_ne c t hc] at h
    rcases hi : escIdx t with _ | j <;> rw [hi] at h <;> simp at h

/-- A list with no escape position contains no escape byte. -/
theorem escIdx_none_not_mem (l : List Char) (h : escIdx l = none) : escChar ∉ l := by
  induction l with
  | nil => simp
  | cons c t ih =>
    by_cases hc : c = escChar
    · subst hc
      rw [escIdx_cons_esc] at h
      simp at h
    · rw [escIdx_cons_ne c t hc] at h
      rcases hi : escIdx t with _ | j
      · intro hmem
        rcases List.mem_cons.mp hmem with hx | hx
        · exact hc hx.symm
        · exact ih hi hx
      · rw [hi] at h
        simp at h

/-! ## String-terminator scan lemmas -/

/-- Unfolding: BEL terminates the scan immediately. -/
theorem findSTAux_bel (cs : List Char) (pos : Nat) :
    findSTAux (belChar :: cs) pos = StScan.found (pos + 1) := by
  simp [findSTAux]

/-- Unfolding: a trailing lone escape byte leaves the terminator unfound. -/
theorem findSTAux_esc_nil (pos : Nat) : findSTAux [escChar] pos = StScan.notFound := by
  have h : ¬(escChar = belChar) := by decide
  simp [findSTAux, h]

/-- Unfolding: `ESC \` terminates the scan. -/
theorem findSTAux_esc_backslash (cs : List Char) (pos : Nat) :
    findSTAux (escChar :: '\\' :: cs) pos = StScan.found (pos + 2) := by
  have h : ¬(escChar = belChar) := by decide
  simp [findSTAux, h]

/-- Unfolding: an escape byte followed by anything other than a backslash
is skipped. -/
theorem findSTAux_esc_other (d : Char) (cs : List Char) (pos : Nat) (hd : ¬(d = '\\')) :
    findSTAux (escChar :: d :: cs) pos = findSTAux (d :: cs) (pos + 1) := by
  have h : ¬(escChar = belChar) := by decide
  simp [findSTAux, h, hd]

/-- Unfolding: a printable character (codepoint at least 32) is skipped. -/
theorem findSTAux_ge32_step (c : Char) (cs : List Char) (pos : Nat) (hc : 32 ≤ c.toNat) :
    findSTAux (c :: cs) pos = findSTAux cs (pos + 1) := by
  have hbel : belChar.toNat = 7 := by decide
  have hesc : escChar.toNat = 27 := by decide
  have hb : ¬(c = belChar) := fun h => by rw [h, hbel] at hc; omega
  have he : ¬(c = escChar) := fun h => by rw [h, hesc] at hc; omega
  simp [findSTAux, hb, he]
  omega

/-- Scanning over a printable segment just advances the position. -/
theorem findSTAux_walk (l m : List Char) (pos : Nat)
    (hl : ∀ c ∈ l, 32 ≤ c.toNat) :
    findSTAux (l ++ m) pos = findSTAux m (pos + l.length) := by
  induction l generalizing pos with
  | nil => simp
  | cons c t ih =>
    rw [List.cons_append, findSTAux_ge32_step c _ pos (hl c (List.mem_cons_self c t))]
    rw [ih (pos + 1) fun x hx => hl x (List.mem_cons_of_mem c hx)]
    congr 1
    simp [List.length_cons]
    omega

/-- Appending input does not change a scan that already found the
terminator. -/
theorem findSTAux_append_found (l e : List Char) (pos n : Nat)
    (h : findSTAux l pos = StScan.found n) :
    findSTAux (l ++ e) pos = StScan.found n := by
  induction l generalizing pos with
  | nil => simp [findSTAux] at h
  | cons c cs ih =>
    rw [List.cons_append]
    by_cases hb : c = belChar
    · subst hb
      rw [findSTAux_bel] at h
      rw [findSTAux_bel]
      exact h
    · by_cases he : c = escChar
      · subst he
        rcases cs with _ | ⟨d, ds⟩
        · rw [findSTAux_esc_nil] at h
          simp at h
        · by_cases hd : d = '\\'
          · subst hd
            rw [findSTAux_esc_backslash] at h
            rw [List.cons_append, findSTAux_esc_backslash]
            exact h
          · rw [findSTAux_esc_other d ds pos hd] at h
            rw [List.cons_append, findSTAux_esc_other d _ pos hd]
            exact ih (pos + 1) h
      · by_cases hc : c.toNat < 32
        · have : findSTAux (c :: cs) pos = StScan.illegal := by
            simp [findSTAux, hb, he, hc]
          rw [this] at h
          simp at h
        · have h32 : 32 ≤ c.toNat := by omega
          rw [findSTAux_ge32_step c _ pos h32] at h
          rw [findSTAux_ge32_step c _ pos h32]
          exact ih (pos + 1) h

/-- Appending input does not change a scan that already hit a disallowed
control character. -/
theorem findSTAux_append_illegal (l e : List Char) (pos : Nat)
    (h : findSTAux l pos = StScan.illegal) :
    findSTAux (l ++ e) pos = StScan.illegal := by
  induction l generalizing pos with
  | nil => simp [findSTAux] at h
  | cons c cs ih =>
    rw [List.cons_append]
    by_cases hb : c = belChar
    · subst hb
      rw [findSTAux_bel] at h
      simp at h
    · by_cases he : c = escChar
      · subst he
        rcases cs with _ | ⟨d, ds⟩
        · rw [findSTAux_esc_nil] at h
          simp at h
        · by_cases hd : d = '\\'
          · subst hd
            rw [findSTAux_esc_backslash] at h
            simp at h
          · rw [findSTAux_esc_other d ds pos hd] at h
            rw [List.cons_append, findSTAux_esc_other d _ pos hd]
            exact ih (pos + 1) h
      · by_cases hc : c.toNat < 32
        · simp [findSTAux, hb, he, hc]
        · have h32 : 32 ≤ c.toNat := by omega
          rw [findSTAux_ge32_step c _ pos h32] at h
          rw [findSTAux_ge32_step c _ pos h32]
          exact ih (pos + 1) h

/-- A found terminator lies within the scanned input. -/
theorem findSTAux_found_le (l : List Char) (pos n : Nat)
    (h : findSTAux l pos = StScan.found n) : n ≤ pos + l.length := by
  induction l generalizing pos with
  | nil => simp [findSTAux] at h
  | cons c cs ih =>
    by_cases hb : c = belChar
    · subst hb
      rw [findSTAux_bel] at h
      have := (StScan.found.inj h).symm
      simp [List.length_cons]
      omega
    · by_cases he : c = escChar
      · subst he
        rcases cs with _ | ⟨d, ds⟩
        · rw [findSTAux_esc_nil] at h
          simp at h
        · by_cases hd : d = '\\'
          · subst hd
            rw [findSTAux_esc_backslash] at h
            have := (StScan.found.inj h).symm
            simp [List.length_cons]
            omega
          · rw [findSTAux_esc_other d ds pos hd] at h
            have := ih (pos + 1) h
            simp [List.length_cons] at this ⊢
            omega
      · by_cases hc : c.toNat < 32
        · have hil : findSTAux (c :: cs) pos = StScan.illegal := by
            simp [findSTAux, hb, he, hc]
          rw [hil] at h
          simp at h
        · have h32 : 32 ≤ c.toNat := by omega
          rw [findSTAux_ge32_step c _ pos h32] at h
          have := ih (pos + 1) h
          simp [List.length_cons]
          omega

/-! ## matchST lemmas -/

/-- Appending input does not change an already-successful terminator
match. -/
theorem matchST_some_append (l e : List Char) (k : Nat) (r : List Char)
    (h : matchST l = some (k, r)) :
    matchST (l ++ e) = some (k, r ++ e) := by
  rcases l with _ | ⟨c, cs⟩
  · simp [matchST] at h
  · rw [List.cons_append]
    by_cases hb : c = belChar
    · subst hb
      simp [matchST] at h ⊢
      simp [h.1, h.2]
    · by_cases he : c = escChar
      · subst he
        rcases cs with _ | ⟨d, ds⟩
        · have hne : ¬(escChar = belChar) := by decide
          simp [matchST, hne] at h
        · by_cases hd : d = '\\'
          · subst hd
            have hne : ¬(escChar = belChar) := by decide
            simp [matchST, hne] at h ⊢
            simp [h.1, h.2]
          · have hne : ¬(escChar = belChar) := by decide
            simp [matchST, hne, hd] at h
      · simp [matchST, hb, he] at h

/-- Shape of a successful terminator match: one BEL byte or the two bytes
`ESC \`. -/
theorem matchST_shape (l : List Char) (k : Nat) (r : List Char)
    (h : matchST l = some (k, r)) :
    (k = 1 ∧ l = belChar :: r) ∨ (k = 2 ∧ l = escChar :: '\\' :: r) := by
  rcases l with _ | ⟨c, cs⟩
  · simp [matchST] at h
  · by_cases hb : c = belChar
    · subst hb
      simp [matchST] at h
      exact Or.inl ⟨h.1.symm, by rw [h.2]⟩
    · by_cases he : c = escChar
      · subst he
        rcases cs with _ | ⟨d, ds⟩
        · have hne : ¬(escChar = belChar) := by decide
          simp [matchST, hne] at h
        · by_cases hd : d = '\\'
          · subst hd
            have hne : ¬(escChar = belChar) := by decide
            simp [matchST, hne] at h
            exact Or.inr ⟨h.1.symm, by rw [h.2]⟩
          · have hne : ¬(escChar = belChar) := by decide
            simp [matchST, hne, hd] at h
      · simp [matchST, hb, he] at h

/-! ## CSI match lemmas -/

/-- Appending input does not change a CSI tail match already decided
(legal or illegal); only `noMatch` can be promoted by more input. -/
theorem csiTail_append_stable (priv rest1 e : List Char)
    (h : csiTail priv rest1 ≠ CsiMatch.noMatch) :
    csiTail priv (rest1 ++ e) = csiTail priv rest1 := by
  rcases hsp : (spanP isCsiParamChar rest1).2 with _ | ⟨c, cs⟩
  · exfalso
    apply h
    simp only [csiTail, hsp]
  · have hne : (spanP isCsiParamChar rest1).2 ≠ [] := by rw [hsp]; simp
    have hspa := spanP_append_of_rest_ne_nil isCsiParamChar rest1 e hne
    rw [hsp] at hspa
    simp only [csiTail, hspa, hsp, List.cons_append]
    by_cases hcmd : isCommand c
    · rw [if_pos hcmd, if_pos hcmd]
    · rw [if_neg hcmd, if_neg hcmd]
      by_cases hint : isIntermediate c
      · rw [if_pos hint, if_pos hint]
        rcases cs with _ | ⟨d, ds⟩
        · exfalso
          apply h
          simp only [csiTail, hsp]
          rw [if_neg hcmd, if_pos hint]
        · rfl
      · rw [if_neg hint, if_neg hint]

/-- A successful CSI tail match carries the supplied private-mode group
and consumes at most the two introducer bytes, the private-mode group and
the available tail. -/
theorem csiTail_ok_bound (priv rest1 p ps cm : List Char) (n : Nat)
    (h : csiTail priv rest1 = CsiMatch.ok p ps cm n) :
    p = priv ∧ (n ≤ 2 + priv.length + rest1.length ∧ 1 ≤ n) := by
  have hlen := spanP_length isCsiParamChar rest1
  rcases hsp : (spanP isCsiParamChar rest1).2 with _ | ⟨c, cs⟩
  · simp only [csiTail, hsp] at h
    exact absurd h (by simp)
  · rw [hsp] at hlen
    simp only [List.length_cons] at hlen
    simp only [csiTail, hsp] at h
    by_cases hcmd : isCommand c
    · rw [if_pos hcmd] at h
      have hinj := CsiMatch.ok.inj h.symm
      refine ⟨hinj.1, ?_⟩
      omega
    · rw [if_neg hcmd] at h
      by_cases hint : isIntermediate c
      · rw [if_pos hint] at h
        rcases cs with _ | ⟨d, ds⟩
        · exact absurd h (by simp)
        · dsimp only at h
          by_cases hd : isCommand d
          · rw [if_pos hd] at h
            have hinj := CsiMatch.ok.inj h.symm
            refine ⟨hinj.1, ?_⟩
            simp only [List.length_cons] at hlen
            omega
          · rw [if_neg hd] at h
            exact absurd h (by simp)
      · rw [if_neg hint] at h
        exact absurd h (by simp)

/-- Appending input does not change a CSI match already decided. -/
theorem matchCSI_append_stable (rest e : List Char)
    (h : matchCSI rest ≠ CsiMatch.noMatch) :
    matchCSI (rest ++ e) = matchCSI rest := by
  rcases rest with _ | ⟨c0, r0⟩
  · exfalso
    apply h
    rfl
  · rw [List.cons_append]
    by_cases hp : isPrivMode c0
    · simp only [matchCSI, if_pos hp] at h ⊢
      exact csiTail_append_stable [c0] r0 e h
    · simp only [matchCSI, if_neg hp] at h ⊢
      rw [← List.cons_append]
      exact csiTail_append_stable [] (c0 :: r0) e h

/-- A successful CSI match consumes at most the two introducer bytes plus
the available tail. -/
theorem matchCSI_ok_bound (rest p ps cm : List Char) (n : Nat)
    (h : matchCSI rest = CsiMatch.ok p ps cm n) :
    n ≤ 2 + rest.length ∧ 1 ≤ n := by
  rcases rest with _ | ⟨c0, r0⟩
  · simp only [matchCSI, csiTail, spanP] at h
    exact absurd h (by simp)
  · by_cases hp : isPrivMode c0
    · simp only [matchCSI, if_pos hp] at h
      have := (csiTail_ok_bound [c0] r0 p ps cm n h).2
      have hl1 : ([c0] : List Char).length = 1 := rfl
      rw [hl1] at this
      simp only [List.length_cons]
      omega
    · simp only [matchCSI, if_neg hp] at h
      have := (csiTail_ok_bound [] (c0 :: r0) p ps cm n h).2
      have hl0 : ([] : List Char).length = 0 := rfl
      rw [hl0] at this
      omega

/-! ## OSC match lemmas: successful matches are append-stable -/

/-- Hyperlink parameter characters are printable. -/
theorem oscParam_ge32 (c : Char) (h : isOscParamChar c = true) : 32 ≤ c.toNat := by
  simp [isOscParamChar] at h
  exact h.1.1

/-- URL characters are printable. -/
theorem urlChar_ge32 (c : Char) (h : isUrlChar c = true) : 32 ≤ c.toNat := by
  simp [isUrlChar] at h
  omega

/-- Text characters are printable. -/
theorem textChar_ge32 (c : Char) (h : isTextChar c = true) : 32 ≤ c.toNat := by
  simp [isTextChar] at h
  exact h.1

/-- A take-5 equal to a five-element list forces length at least 5. -/
theorem take5_length (r : List Char) (h : r.take 5 = [escChar, ']', '8', ';', ';']) :
    5 ≤ r.length := by
  have := congrArg List.length h
  simp [List.length_take] at this
  omega

/-- Appending input does not change a successful close match. -/
theorem oscClose_some_append (r e : List Char) (n : Nat) (h : oscClose r = some n) :
    oscClose (r ++ e) = some n := by
  by_cases ht : r.take 5 = [escChar, ']', '8', ';', ';']
  · have h5 := take5_length r ht
    have hta : (r ++ e).take 5 = r.take 5 := List.take_append_of_le_length h5
    have hda : (r ++ e).drop 5 = r.drop 5 ++ e := List.drop_append_of_le_length h5
    simp only [oscClose, ht, if_true] at h
    simp only [oscClose, hta, ht, if_true, hda]
    rcases hst : matchST (r.drop 5) with _ | ⟨k, rst⟩
    · rw [hst] at h
      simp at h
    · rw [hst] at h
      rw [matchST_some_append _ e k rst hst]
      exact h
  · simp only [oscClose, ht, if_false] at h
    exact absurd h (by simp)

/-- A successful close match consumes at most the available input. -/
theorem oscClose_some_bound (r : List Char) (n : Nat) (h : oscClose r = some n) :
    n ≤ r.length := by
  by_cases ht : r.take 5 = [escChar, ']', '8', ';', ';']
  · have h5 := take5_length r ht
    simp only [oscClose, ht, if_true] at h
    rcases hst : matchST (r.drop 5) with _ | ⟨k, rst⟩
    · rw [hst] at h
      simp at h
    · rw [hst] at h
      simp only [Option.some.injEq] at h
      rcases matchST_shape _ k rst hst with ⟨hk, hsh⟩ | ⟨hk, hsh⟩ <;>
        · have hl := congrArg List.length hsh
          simp [List.length_drop, List.length_cons] at hl
          omega
  · simp only [oscClose, ht, if_false] at h
    exact absurd h (by simp)

/-- Appending input does not change a successful text stage. -/
theorem oscText_some_append (r e : List Char) (t : List Char) (n : Nat)
    (h : oscText r = some (t, n)) :
    oscText (r ++ e) = some (t, n) := by
  rcases hsp : (spanP isTextChar r).2 with _ | ⟨c, cs⟩
  · exfalso
    simp only [oscText, hsp] at h
    rcases htx : (spanP isTextChar r).1 with _ | ⟨x, xs⟩
    · rw [htx] at h
      simp at h
    · rw [htx, if_neg (by simp)] at h
      simp only [oscClose, List.take_nil] at h
      rw [if_neg (by simp)] at h
      simp at h
  · have hne : (spanP isTextChar r).2 ≠ [] := by rw [hsp]; simp
    have hspa := spanP_append_of_rest_ne_nil isTextChar r e hne
    simp only [oscText, hspa] at h ⊢
    rcases htx : (spanP isTextChar r).1 with _ | ⟨x, xs⟩
    · rw [htx] at h
      simp at h
    · rw [htx, if_neg (by simp)] at h
      rw [if_neg (List.cons_ne_nil x xs)]
      rcases hcl : oscClose (spanP isTextChar r).2 with _ | m
      · rw [hcl] at h
        simp at h
      · rw [hcl] at h
        rw [oscClose_some_append _ e m hcl]
        exact h

/-- A successful text stage consumes at most the available input. -/
theorem oscText_some_bound (r : List Char) (t : List Char) (n : Nat)
    (h : oscText r = some (t, n)) :
    n ≤ r.length := by
  simp only [oscText] at h
  rcases htx : (spanP isTextChar r).1 with _ | ⟨x, xs⟩
  · rw [htx] at h
    simp at h
  · rw [htx, if_neg (by simp)] at h
    rcases hcl : oscClose (spanP isTextChar r).2 with _ | m
    · rw [hcl] at h
      simp at h
    · rw [hcl] at h
      simp only [Option.some.injEq, Prod.mk.injEq] at h
      have hb := oscClose_some_bound _ m hcl
      have hlen := spanP_length isTextChar r
      rw [htx] at hlen
      simp only [List.length_cons] at hlen
      rw [← h.2]
      simp only [List.length_cons]
      omega

/-- Appending input does not change a successful URL stage. -/
theorem oscUrl_some_append (r e : List Char) (u t : List Char) (n : Nat)
    (h : oscUrl r = some (u, t, n)) :
    oscUrl (r ++ e) = some (u, t, n) := by
  rcases hst : matchST (spanP isUrlChar r).2 with _ | ⟨k, rest4⟩
  · simp only [oscUrl, hst] at h
    exact absurd h (by simp)
  · have hne : (spanP isUrlChar r).2 ≠ [] := by
      intro hnil
      rw [hnil] at hst
      simp [matchST] at hst
    have hspa := spanP_append_of_rest_ne_nil isUrlChar r e hne
    rcases htx : oscText rest4 with _ | ⟨tt, tl⟩
    · simp only [oscUrl, hspa, hst, htx] at h
      exact absurd h (by simp)
    · simp only [oscUrl, hst, htx] at h
      simp only [oscUrl, hspa, matchST_some_append _ e k rest4 hst,
        oscText_some_append rest4 e tt tl htx]
      exact h

/-- A successful URL stage consumes at most the available input. -/
theorem oscUrl_some_bound (r : List Char) (u t : List Char) (n : Nat)
    (h : oscUrl r = some (u, t, n)) :
    n ≤ r.length := by
  rcases hst : matchST (spanP isUrlChar r).2 with _ | ⟨k, rest4⟩
  · simp only [oscUrl, hst] at h
    exact absurd h (by simp)
  · simp only [oscUrl, hst] at h
    rcases htx : oscText rest4 with _ | ⟨tt, tl⟩
    · rw [htx] at h
      simp at h
    · rw [htx] at h
      simp only [Option.some.injEq, Prod.mk.injEq] at h
      have htb := oscText_some_bound rest4 tt tl htx
      have hlen := spanP_length isUrlChar r
      rcases matchST_shape _ k rest4 hst with ⟨hk, hsh⟩ | ⟨hk, hsh⟩ <;>
        · have hl := congrArg List.length hsh
          simp only [List.length_cons] at hl
          rw [← h.2.2]
          omega

/-- Appending input does not change a successful hyperlink match. -/
theorem matchOSC_some_append (b e : List Char) (u t : List Char) (n : Nat)
    (h : matchOSC b = some (u, t, n)) :
    matchOSC (b ++ e) = some (u, t, n) := by
  rcases b with _ | ⟨x1, _ | ⟨x2, _ | ⟨x3, _ | ⟨x4, rest⟩⟩⟩⟩ <;>
    try (exfalso; revert h; simp [matchOSC]; done)
  by_cases hx : x1 = escChar ∧ x2 = ']' ∧ x3 = '8' ∧ x4 = ';'
  · simp only [matchOSC, if_pos hx] at h
    simp only [List.cons_append, matchOSC, if_pos hx]
    rcases hsp : (spanP isOscParamChar rest).2 with _ | ⟨c, rest2⟩
    · rw [hsp] at h
      simp at h
    · rw [hsp] at h
      have hne : (spanP isOscParamChar rest).2 ≠ [] := by rw [hsp]; simp
      have hspa := spanP_append_of_rest_ne_nil isOscParamChar rest e hne
      rw [hspa, hsp]
      simp only [List.cons_append]
      dsimp only at h ⊢
      by_cases hc : c = ';'
      · rw [if_pos hc] at h
        rw [if_pos hc]
        rcases hu : oscUrl rest2 with _ | ⟨⟨uu, tt, l⟩⟩
        · rw [hu] at h
          simp at h
        · rw [hu] at h
          rw [oscUrl_some_append rest2 e uu tt l hu]
          exact h
      · rw [if_neg hc] at h
        simp at h
  · simp only [matchOSC, if_neg hx] at h
    exact absurd h (by simp)

/-- A successful hyperlink match consumes at most the available buffer. -/
theorem matchOSC_some_bound (b : List Char) (u t : List Char) (n : Nat)
    (h : matchOSC b = some (u, t, n)) :
    n ≤ b.length ∧ 1 ≤ n := by
  rcases b with _ | ⟨x1, _ | ⟨x2, _ | ⟨x3, _ | ⟨x4, rest⟩⟩⟩⟩ <;>
    try (exfalso; revert h; simp [matchOSC]; done)
  by_cases hx : x1 = escChar ∧ x2 = ']' ∧ x3 = '8' ∧ x4 = ';'
  · simp only [matchOSC, if_pos hx] at h
    rcases hsp : (spanP isOscParamChar rest).2 with _ | ⟨c, rest2⟩
    · rw [hsp] at h
      simp at h
    · rw [hsp] at h
      dsimp only at h
      by_cases hc : c = ';'
      · rw [if_pos hc] at h
        rcases hu : oscUrl rest2 with _ | ⟨⟨uu, tt, l⟩⟩
        · rw [hu] at h
          simp at h
        · rw [hu] at h
          simp only [Option.some.injEq, Prod.mk.injEq] at h
          have hub := oscUrl_some_bound rest2 uu tt l hu
          have hlen := spanP_length isOscParamChar rest
          have hrlen : (spanP isOscParamChar rest).2.length = rest2.length + 1 := by
            rw [hsp]
            simp [List.length_cons]
          simp only [List.length_cons]
          rw [← h.2.2]
          omega
      · rw [if_neg hc] at h
        simp at h
  · simp only [matchOSC, if_neg hx] at h
    exact absurd h (by simp)

/-! ## OSC match lemmas: failed matches stay failed when both scans found
terminators -/

/-- Unfolding: BEL heads a terminator match. -/
theorem matchST_bel (cs : List Char) : matchST (belChar :: cs) = some (1, cs) := by
  simp [matchST]

/-- Unfolding: `ESC \` heads a terminator match. -/
theorem matchST_esc_backslash (ds : List Char) :
    matchST (escChar :: '\\' :: ds) = some (2, ds) := by
  have hne : ¬(escChar = belChar) := by decide
  simp [matchST, hne]

/-- Unfolding: a head that is neither BEL nor ESC cannot start a
terminator. -/
theorem matchST_none_head (c : Char) (cs : List Char) (hb : ¬(c = belChar))
    (he : ¬(c = escChar)) : matchST (c :: cs) = none := by
  simp [matchST, hb, he]

/-- Unfolding: ESC followed by a non-backslash cannot start a terminator. -/
theorem matchST_esc_other (d : Char) (ds : List Char) (hd : ¬(d = '\\')) :
    matchST (escChar :: d :: ds) = none := by
  have hne : ¬(escChar = belChar) := by decide
  simp [matchST, hne, hd]

/-- Scanning from the head of the closing `ESC ] 8 ; ;` advances past its
five characters. -/
theorem findSTAux_close_walk (tail : List Char) (pos : Nat) :
    findSTAux (escChar :: ']' :: '8' :: ';' :: ';' :: tail) pos =
      findSTAux tail (pos + 5) := by
  rw [findSTAux_esc_other (']') _ pos (by decide)]
  rw [findSTAux_ge32_step (']') _ _ (by decide)]
  rw [findSTAux_ge32_step ('8') _ _ (by decide)]
  rw [findSTAux_ge32_step (';') _ _ (by decide)]
  rw [findSTAux_ge32_step (';') _ _ (by decide)]

/-- Core of the terminator-absence contradiction: if the remainder after a
failed terminator match is where the scan claims a terminator, the
remainder cannot be empty or a lone escape, and a decided failure is
append-stable. -/
theorem matchST_none_next (r e : List Char) (pos n : Nat)
    (hscan : findSTAux r pos = StScan.found n)
    (h : matchST r = none) : matchST (r ++ e) = none := by
  rcases r with _ | ⟨c, cs⟩
  · simp [findSTAux] at hscan
  · by_cases hb : c = belChar
    · subst hb
      rw [matchST_bel] at h
      simp at h
    · by_cases he : c = escChar
      · subst he
        rcases cs with _ | ⟨d, ds⟩
        · rw [findSTAux_esc_nil] at hscan
          simp at hscan
        · by_cases hd : d = '\\'
          · subst hd
            rw [matchST_esc_backslash] at h
            simp at h
          · rw [List.cons_append, List.cons_append]
            exact matchST_esc_other d _ hd
      · rw [List.cons_append]
        exact matchST_none_head c _ hb he

/-- Appending input cannot make a failed close match succeed when the scan
already found a terminator at the close position. -/
theorem oscClose_none_stable (r e : List Char) (pos n2 : Nat)
    (hscan : findSTAux r pos = StScan.found n2)
    (h : oscClose r = none) : oscClose (r ++ e) = none := by
  by_cases ht : r.take 5 = [escChar, ']', '8', ';', ';']
  · have h5 := take5_length r ht
    have hr : r = escChar :: ']' :: '8' :: ';' :: ';' :: r.drop 5 := by
      conv_lhs => rw [← List.take_append_drop 5 r]
      rw [ht]
      rfl
    have hscan5 : findSTAux (r.drop 5) (pos + 5) = StScan.found n2 := by
      rw [hr, findSTAux_close_walk] at hscan
      exact hscan
    simp only [oscClose, ht, if_true] at h
    rcases hst : matchST (r.drop 5) with _ | ⟨k, rst⟩
    · have hta : (r ++ e).take 5 = r.take 5 := List.take_append_of_le_length h5
      have hda : (r ++ e).drop 5 = r.drop 5 ++ e := List.drop_append_of_le_length h5
      simp only [oscClose, hta, ht, if_true, hda]
      rw [matchST_none_next (r.drop 5) e (pos + 5) n2 hscan5 hst]
    · rw [hst] at h
      simp at h
  · by_cases h5 : 5 ≤ r.length
    · have hta : (r ++ e).take 5 = r.take 5 := List.take_append_of_le_length h5
      simp only [oscClose, hta, ht, if_false]
    · by_cases ht2 : (r ++ e).take 5 = [escChar, ']', '8', ';', ';']
      · exfalso
        have h1 : r = (r ++ e).take r.length := (List.take_left r e).symm
        have h2 : (r ++ e).take r.length = ((r ++ e).take 5).take r.length := by
          rw [List.take_take]
          congr 1
          omega
        have hrl : r = ([escChar, ']', '8', ';', ';'] : List Char).take r.length := by
          conv_lhs => rw [h1, h2, ht2]
        rcases r with _ | ⟨a, _ | ⟨b, _ | ⟨c, _ | ⟨d, _ | ⟨f, t⟩⟩⟩⟩⟩
        · simp [findSTAux] at hscan
        · simp at hrl
          subst hrl
          rw [findSTAux_esc_nil] at hscan
          simp at hscan
        · simp at hrl
          obtain ⟨ha, hb⟩ := hrl
          subst ha
          subst hb
          rw [findSTAux_esc_other (']') _ pos (by decide)] at hscan
          rw [findSTAux_ge32_step (']') _ _ (by decide)] at hscan
          simp [findSTAux] at hscan
        · simp at hrl
          obtain ⟨ha, hb, hc⟩ := hrl
          subst ha
          subst hb
          subst hc
          rw [findSTAux_esc_other (']') _ pos (by decide)] at hscan
          rw [findSTAux_ge32_step (']') _ _ (by decide)] at hscan
          rw [findSTAux_ge32_step ('8') _ _ (by decide)] at hscan
          simp [findSTAux] at hscan
        · simp at hrl
          obtain ⟨ha, hb, hc, hd⟩ := hrl
          subst ha
          subst hb
          subst hc
          subst hd
          rw [findSTAux_esc_other (']') _ pos (by decide)] at hscan
          rw [findSTAux_ge32_step (']') _ _ (by decide)] at hscan
          rw [findSTAux_ge32_step ('8') _ _ (by decide)] at hscan
          rw [findSTAux_ge32_step (';') _ _ (by decide)] at hscan
          simp [findSTAux] at hscan
        · simp [List.length_cons] at h5
      · simp only [oscClose, ht2, if_false]

/-- A found terminator lies strictly beyond the scan start. -/
theorem findSTAux_found_ge (l : List Char) (pos n : Nat)
    (h : findSTAux l pos = StScan.found n) : pos < n := by
  induction l generalizing pos with
  | nil => simp [findSTAux] at h
  | cons c cs ih =>
    by_cases hb : c = belChar
    · subst hb
      rw [findSTAux_bel] at h
      have := (StScan.found.inj h).symm
      omega
    · by_cases he : c = escChar
      · subst he
        rcases cs with _ | ⟨d, ds⟩
        · rw [findSTAux_esc_nil] at h
          simp at h
        · by_cases hd : d = '\\'
          · subst hd
            rw [findSTAux_esc_backslash] at h
            have := (StScan.found.inj h).symm
            omega
          · rw [findSTAux_esc_other d ds pos hd] at h
            have := ih (pos + 1) h
            omega
      · by_cases hc : c.toNat < 32
        · have hil : findSTAux (c :: cs) pos = StScan.illegal := by
            simp [findSTAux, hb, he, hc]
          rw [hil] at h
          simp at h
        · have h32 : 32 ≤ c.toNat := by omega
          rw [findSTAux_ge32_step c _ pos h32] at h
          have := ih (pos + 1) h
          omega

/-- Appending input cannot make a failed text stage succeed when the scan
already found a terminator in its input. -/
theorem oscText_none_stable (r e : List Char) (pos n2 : Nat)
    (hscan : findSTAux r pos = StScan.found n2)
    (h : oscText r = none) : oscText (r ++ e) = none := by
  have hdec := spanP_decomp isTextChar r
  have hwalk : findSTAux (spanP isTextChar r).2
      (pos + (spanP isTextChar r).1.length) = StScan.found n2 := by
    have hw := findSTAux_walk (spanP isTextChar r).1 (spanP isTextChar r).2 pos
      (fun c hc => textChar_ge32 c (spanP_fst_all isTextChar r c hc))
    rw [hdec] at hw
    rw [hw] at hscan
    exact hscan
  rcases hsp : (spanP isTextChar r).2 with _ | ⟨c, cs⟩
  · rw [hsp] at hwalk
    simp [findSTAux] at hwalk
  · have hne : (spanP isTextChar r).2 ≠ [] := by rw [hsp]; simp
    have hspa := spanP_append_of_rest_ne_nil isTextChar r e hne
    simp only [oscText, hspa] at h ⊢
    rcases htx : (spanP isTextChar r).1 with _ | ⟨x, xs⟩
    · simp
    · rw [htx, if_neg (List.cons_ne_nil x xs)] at h
      rw [if_neg (List.cons_ne_nil x xs)]
      rcases hcl : oscClose (spanP isTextChar r).2 with _ | m
      · have hcla := oscClose_none_stable ((spanP isTextChar r).2) e
          (pos + (spanP isTextChar r).1.length) n2 hwalk hcl
        rw [hcla]
      · rw [hcl] at h
        simp at h

/-- Appending input cannot make a failed URL stage succeed when the first
scan found a terminator inside this stage's input and the second scan
found one after it. -/
theorem oscUrl_none_stable (r e : List Char) (pos n1 n2 : Nat)
    (hscan : findSTAux r pos = StScan.found n1)
    (hscan2 : findSTAux (r.drop (n1 - pos)) n1 = StScan.found n2)
    (h : oscUrl r = none) : oscUrl (r ++ e) = none := by
  have hdec := spanP_decomp isUrlChar r
  have hwalk : findSTAux (spanP isUrlChar r).2
      (pos + (spanP isUrlChar r).1.length) = StScan.found n1 := by
    have hw := findSTAux_walk (spanP isUrlChar r).1 (spanP isUrlChar r).2 pos
      (fun c hc => urlChar_ge32 c (spanP_fst_all isUrlChar r c hc))
    rw [hdec] at hw
    rw [hw] at hscan
    exact hscan
  rcases hst : matchST (spanP isUrlChar r).2 with _ | ⟨k, rest4⟩
  · -- the terminator match failed: either out of input (contradicting the
    -- scan) or a decided mismatch (stable)
    rcases hsp : (spanP isUrlChar r).2 with _ | ⟨c, cs⟩
    · rw [hsp] at hwalk
      simp [findSTAux] at hwalk
    · rw [hsp] at hst
      have hne : (spanP isUrlChar r).2 ≠ [] := by rw [hsp]; simp
      have hspa := spanP_append_of_rest_ne_nil isUrlChar r e hne
      simp only [oscUrl, hspa, hsp, List.cons_append] at h ⊢
      by_cases hb : c = belChar
      · subst hb
        rw [matchST_bel] at hst
        simp at hst
      · by_cases he : c = escChar
        · subst he
          rcases cs with _ | ⟨d, ds⟩
          · rw [hsp] at hwalk
            rw [findSTAux_esc_nil] at hwalk
            simp at hwalk
          · by_cases hd : d = '\\'
            · subst hd
              rw [matchST_esc_backslash] at hst
              simp at hst
            · simp only [List.cons_append]
              rw [matchST_esc_other d (ds ++ e) hd]
        · rw [matchST_none_head c (cs ++ e) hb he]
  · -- the terminator matched: locate the second scan on the remainder
    rcases htx : oscText rest4 with _ | ⟨tt, tl⟩
    · have hshape := matchST_shape _ k rest4 hst
      have hfound : findSTAux (spanP isUrlChar r).2
          (pos + (spanP isUrlChar r).1.length) =
            StScan.found (pos + (spanP isUrlChar r).1.length + k) := by
        rcases hshape with ⟨hk, hsh⟩ | ⟨hk, hsh⟩
        · rw [hsh, findSTAux_bel, hk]
        · rw [hsh, findSTAux_esc_backslash, hk]
      have hn1 : n1 = pos + (spanP isUrlChar r).1.length + k :=
        StScan.found.inj (hwalk.symm.trans hfound)
      have hdrop : r.drop (n1 - pos) = rest4 := by
        have hnp : n1 - pos = (spanP isUrlChar r).1.length + k := by omega
        rcases hshape with ⟨hk, hsh⟩ | ⟨hk, hsh⟩
        · have hr : (spanP isUrlChar r).1 ++ (belChar :: rest4) = r := by
            rw [← hsh]
            exact hdec
          calc r.drop (n1 - pos)
              = ((spanP isUrlChar r).1 ++ (belChar :: rest4)).drop
                  ((spanP isUrlChar r).1.length + 1) := by rw [hr, hnp, hk]
            _ = (belChar :: rest4).drop 1 := List.drop_append 1
            _ = rest4 := rfl
        · have hr : (spanP isUrlChar r).1 ++ (escChar :: '\\' :: rest4) = r := by
            rw [← hsh]
            exact hdec
          calc r.drop (n1 - pos)
              = ((spanP isUrlChar r).1 ++ (escChar :: '\\' :: rest4)).drop
                  ((spanP isUrlChar r).1.length + 2) := by rw [hr, hnp, hk]
            _ = (escChar :: '\\' :: rest4).drop 2 := List.drop_append 2
            _ = rest4 := rfl
      have hsc4 : findSTAux rest4 n1 = StScan.found n2 := by
        rw [hdrop] at hscan2
        exact hscan2
      have htxa := oscText_none_stable rest4 e n1 n2 hsc4 htx
      have hne : (spanP isUrlChar r).2 ≠ [] := by
        intro hnil
        rw [hnil] at hst
        simp [matchST] at hst
      have hspa := spanP_append_of_rest_ne_nil isUrlChar r e hne
      simp only [oscUrl, hspa, matchST_some_append _ e k rest4 hst, htxa]
    · simp only [oscUrl, hst, htx] at h
      exact absurd h (by simp)

/-- Scanning from the head of the introducer `ESC ] 8 ;` advances past its
four characters. -/
theorem findSTAux_intro_walk (rest : List Char) (pos : Nat) :
    findSTAux (escChar :: ']' :: '8' :: ';' :: rest) pos =
      findSTAux rest (pos + 4) := by
  rw [findSTAux_esc_other (']') _ pos (by decide)]
  rw [findSTAux_ge32_step (']') _ _ (by decide)]
  rw [findSTAux_ge32_step ('8') _ _ (by decide)]
  rw [findSTAux_ge32_step (';') _ _ (by decide)]

/-- Appending input cannot make a failed hyperlink match succeed when both
string-terminator scans over the buffer found terminators (the situation
in which `Ansi.#read` consults the full match). -/
theorem matchOSC_none_stable (rest e : List Char) (n1 n2 : Nat)
    (h1 : findSTAux rest 4 = StScan.found n1)
    (h2 : findSTAux ((escChar :: ']' :: '8' :: ';' :: rest).drop n1) n1 = StScan.found n2)
    (h : matchOSC (escChar :: ']' :: '8' :: ';' :: rest) = none) :
    matchOSC (escChar :: ']' :: '8' :: ';' :: (rest ++ e)) = none := by
  have hcond : escChar = escChar ∧ (']' : Char) = ']' ∧ ('8' : Char) = '8' ∧
      (';' : Char) = ';' := ⟨rfl, rfl, rfl, rfl⟩
  simp only [matchOSC, if_pos hcond] at h ⊢
  have hdec := spanP_decomp isOscParamChar rest
  have hwalk : findSTAux (spanP isOscParamChar rest).2
      (4 + (spanP isOscParamChar rest).1.length) = StScan.found n1 := by
    have hw := findSTAux_walk (spanP isOscParamChar rest).1 (spanP isOscParamChar rest).2 4
      (fun c hc => oscParam_ge32 c (spanP_fst_all isOscParamChar rest c hc))
    rw [hdec] at hw
    rw [hw] at h1
    exact h1
  rcases hsp : (spanP isOscParamChar rest).2 with _ | ⟨c, rest2⟩
  · rw [hsp] at hwalk
    simp [findSTAux] at hwalk
  · have hne : (spanP isOscParamChar rest).2 ≠ [] := by rw [hsp]; simp
    have hspa := spanP_append_of_rest_ne_nil isOscParamChar rest e hne
    rw [hsp] at h
    rw [hspa, hsp]
    simp only [List.cons_append]
    dsimp only at h ⊢
    by_cases hc : c = ';'
    · rw [if_pos hc] at h
      rw [if_pos hc]
      rcases hu : oscUrl rest2 with _ | ⟨⟨uu, tt, l⟩⟩
      · -- transported scan facts for the URL stage
        rw [hsp] at hwalk
        subst hc
        rw [findSTAux_ge32_step (';') _ _ (by decide)] at hwalk
        have hge := findSTAux_found_ge rest2 (4 + (spanP isOscParamChar rest).1.length + 1)
          n1 hwalk
        have hdropb : (escChar :: ']' :: '8' :: ';' :: rest).drop n1 =
            rest2.drop (n1 - (4 + (spanP isOscParamChar rest).1.length + 1)) := by
          have hr2 : (spanP isOscParamChar rest).1 ++ (';' :: rest2) = rest := by
            conv_rhs => rw [← hdec]
            rw [hsp]
          have hpre : ((escChar :: ']' :: '8' :: ';' :: (spanP isOscParamChar rest).1) ++
              [';']) ++ rest2 = escChar :: ']' :: '8' :: ';' :: rest := by
            simp only [List.append_assoc, List.cons_append, List.nil_append,
              List.singleton_append]
            rw [hr2]
          have hlen : ((escChar :: ']' :: '8' :: ';' :: (spanP isOscParamChar rest).1) ++
              [';']).length = 4 + (spanP isOscParamChar rest).1.length + 1 := by
            simp [List.length_append, List.length_cons]
            omega
          calc (escChar :: ']' :: '8' :: ';' :: rest).drop n1
              = (((escChar :: ']' :: '8' :: ';' :: (spanP isOscParamChar rest).1) ++
                  [';']) ++ rest2).drop
                  (((escChar :: ']' :: '8' :: ';' ::
                    (spanP isOscParamChar rest).1) ++ [';']).length +
                    (n1 - (4 + (spanP isOscParamChar rest).1.length + 1))) := by
                rw [hpre, hlen]
                congr 1
                omega
            _ = rest2.drop (n1 - (4 + (spanP isOscParamChar rest).1.length + 1)) :=
                List.drop_append _
        have hscan2 : findSTAux
            (rest2.drop (n1 - (4 + (spanP isOscParamChar rest).1.length + 1))) n1 =
            StScan.found n2 := by
          rw [hdropb] at h2
          exact h2
        have hua := oscUrl_none_stable rest2 e
          (4 + (spanP isOscParamChar rest).1.length + 1) n1 n2 hwalk hscan2 hu
        rw [hua]
        simp
      · rw [hu] at h
        simp at h
    · rw [if_neg hc] at h
      rw [if_neg hc]
      simp

/-! ## Tokenizer-step branch equations -/

/-- Branch equation: empty buffer. -/
theorem readStep_eq_empty (c : List Char) (hlc : c.length = 0) :
    readStep c = (AnsiToken.EOS, 0) := by
  simp only [readStep]
  rw [if_pos hlc]

/-- Branch equation: no escape byte, the whole buffer is plain text. -/
theorem readStep_eq_text_all (c : List Char) (hlc : ¬c.length = 0)
    (hidx : escIdx c = none) :
    readStep c = (AnsiToken.TEXT c, c.length) := by
  simp only [readStep]
  rw [if_neg hlc, hidx]

/-- Branch equation: text before the first escape byte. -/
theorem readStep_eq_text_pre (c : List Char) (pos : Nat) (hlc : ¬c.length = 0)
    (hidx : escIdx c = some pos) (hp0 : 0 < pos) :
    readStep c = (AnsiToken.TEXT (c.take pos), pos) := by
  simp only [readStep]
  rw [if_neg hlc, hidx]
  dsimp only
  rw [if_pos hp0]

/-- Branch equation: escape at the head of a too-short buffer. -/
theorem readStep_eq_short (c : List Char) (hlc : ¬c.length = 0)
    (hidx : escIdx c = some 0) (hl3 : c.length < 3) :
    readStep c = (AnsiToken.INCESC, 0) := by
  simp only [readStep]
  rw [if_neg hlc, hidx]
  dsimp only
  rw [if_neg (by omega : ¬(0 : Nat) < 0), if_pos hl3]

/-- Branch equation: unrecognized introducer character. -/
theorem readStep_eq_bare (c : List Char) (hlc : ¬c.length = 0)
    (hidx : escIdx c = some 0) (hl3 : ¬c.length < 3)
    (hbr : c.getD 1 escChar ≠ '[' ∧ c.getD 1 escChar ≠ ']' ∧ c.getD 1 escChar ≠ '(') :
    readStep c = (AnsiToken.ESC, 1) := by
  simp only [readStep]
  rw [if_neg hlc, hidx]
  dsimp only
  rw [if_neg (by omega : ¬(0 : Nat) < 0), if_neg hl3, if_pos hbr]

/-- Branch equation: CSI introducer, delegating to the CSI match. -/
theorem readStep_eq_csi (c : List Char) (hlc : ¬c.length = 0)
    (hidx : escIdx c = some 0) (hl3 : ¬c.length < 3)
    (hpk : c.getD 1 escChar = '[') :
    readStep c =
      (match matchCSI (c.drop 2) with
        | CsiMatch.noMatch => (AnsiToken.INCESC, 0)
        | CsiMatch.illegal => (AnsiToken.ESC, 1)
        | CsiMatch.ok priv params cmd len =>
          if priv ≠ [] ∨ cmd ≠ ['m'] then (AnsiToken.UNKNOWN, len)
          else (AnsiToken.SGR params, len)) := by
  simp only [readStep]
  rw [if_neg hlc, hidx]
  dsimp only
  rw [if_neg (by omega : ¬(0 : Nat) < 0), if_neg hl3,
    if_neg (fun h => h.1 hpk), if_pos hpk]

/-- Branch equation: OSC introducer on a too-short buffer. -/
theorem readStep_eq_osc_short (c : List Char) (hlc : ¬c.length = 0)
    (hidx : escIdx c = some 0) (hl3 : ¬c.length < 3)
    (hpk : c.getD 1 escChar = ']') (hl4 : c.length < 4) :
    readStep c = (AnsiToken.INCESC, 0) := by
  simp only [readStep]
  rw [if_neg hlc, hidx]
  dsimp only
  rw [if_neg (by omega : ¬(0 : Nat) < 0), if_neg hl3,
    if_neg (fun h => h.2.1 hpk), if_neg (by rw [hpk]; decide), if_pos hpk,
    if_pos hl4]

/-- Branch equation: OSC introducer without the hyperlink prefix `8;`. -/
theorem readStep_eq_osc_mismatch (c : List Char) (hlc : ¬c.length = 0)
    (hidx : escIdx c = some 0) (hl3 : ¬c.length < 3)
    (hpk : c.getD 1 escChar = ']') (hl4 : ¬c.length < 4)
    (hm : c.getD 2 escChar ≠ '8' ∨ c.getD 3 escChar ≠ ';') :
    readStep c = (AnsiToken.ESC, 1) := by
  simp only [readStep]
  rw [if_neg hlc, hidx]
  dsimp only
  rw [if_neg (by omega : ¬(0 : Nat) < 0), if_neg hl3,
    if_neg (fun h => h.2.1 hpk), if_neg (by rw [hpk]; decide), if_pos hpk,
    if_neg hl4, if_pos hm]

/-- Branch equation: hyperlink attempt, delegating to the scans and the
full match. -/
theorem readStep_eq_osc (c : List Char) (hlc : ¬c.length = 0)
    (hidx : escIdx c = some 0) (hl3 : ¬c.length < 3)
    (hpk : c.getD 1 escChar = ']') (hl4 : ¬c.length < 4)
    (h8 : c.getD 2 escChar = '8') (hsc : c.getD 3 escChar = ';') :
    readStep c =
      (match findSTFrom c 0 with
        | StScan.illegal => (AnsiToken.ESC, 1)
        | StScan.notFound => (AnsiToken.INCESC, 0)
        | StScan.found n1 =>
          match findSTFrom c n1 with
          | StScan.illegal => (AnsiToken.ESC, 1)
          | StScan.notFound => (AnsiToken.INCESC, 0)
          | StScan.found _ =>
            match matchOSC c with
            | none => (AnsiToken.ESC, 1)
            | some (url, text, len) => (AnsiToken.OSC url text, len)) := by
  simp only [readStep]
  rw [if_neg hlc, hidx]
  dsimp only
  rw [if_neg (by omega : ¬(0 : Nat) < 0), if_neg hl3,
    if_neg (fun h => h.2.1 hpk), if_neg (by rw [hpk]; decide), if_pos hpk,
    if_neg hl4, if_neg (fun h => h.elim (fun h2 => h2 h8) (fun h3 => h3 hsc))]

/-- Composite branch equation: first scan hit an illegal character. -/
theorem readStep_eq_osc_ill1 (c : List Char) (hlc : ¬c.length = 0)
    (hidx : escIdx c = some 0) (hl3 : ¬c.length < 3)
    (hpk : c.getD 1 escChar = ']') (hl4 : ¬c.length < 4)
    (h8 : c.getD 2 escChar = '8') (hsc : c.getD 3 escChar = ';')
    (hst1 : findSTFrom c 0 = StScan.illegal) :
    readStep c = (AnsiToken.ESC, 1) := by
  rw [readStep_eq_osc c hlc hidx hl3 hpk hl4 h8 hsc, hst1]

/-- Composite branch equation: first scan found no terminator. -/
theorem readStep_eq_osc_nf1 (c : List Char) (hlc : ¬c.length = 0)
    (hidx : escIdx c = some 0) (hl3 : ¬c.length < 3)
    (hpk : c.getD 1 escChar = ']') (hl4 : ¬c.length < 4)
    (h8 : c.getD 2 escChar = '8') (hsc : c.getD 3 escChar = ';')
    (hst1 : findSTFrom c 0 = StScan.notFound) :
    readStep c = (AnsiToken.INCESC, 0) := by
  rw [readStep_eq_osc c hlc hidx hl3 hpk hl4 h8 hsc, hst1]

/-- Composite branch equation: second scan hit an illegal character. -/
theorem readStep_eq_osc_ill2 (c : List Char) (hlc : ¬c.length = 0)
    (hidx : escIdx c = some 0) (hl3 : ¬c.length < 3)
    (hpk : c.getD 1 escChar = ']') (hl4 : ¬c.length < 4)
    (h8 : c.getD 2 escChar = '8') (hsc : c.getD 3 escChar = ';') (n1 : Nat)
    (hst1 : findSTFrom c 0 = StScan.found n1)
    (hst2 : findSTFrom c n1 = StScan.illegal) :
    readStep c = (AnsiToken.ESC, 1) := by
  rw [readStep_eq_osc c hlc hidx hl3 hpk hl4 h8 hsc, hst1]
  dsimp only
  rw [hst2]

/-- Composite branch equation: second scan found no terminator. -/
theorem readStep_eq_osc_nf2 (c : List Char) (hlc : ¬c.length = 0)
    (hidx : escIdx c = some 0) (hl3 : ¬c.length < 3)
    (hpk : c.getD 1 escChar = ']') (hl4 : ¬c.length < 4)
    (h8 : c.getD 2 escChar = '8') (hsc : c.getD 3 escChar = ';') (n1 : Nat)
    (hst1 : findSTFrom c 0 = StScan.found n1)
    (hst2 : findSTFrom c n1 = StScan.notFound) :
    readStep c = (AnsiToken.INCESC, 0) := by
  rw [readStep_eq_osc c hlc hidx hl3 hpk hl4 h8 hsc, hst1]
  dsimp only
  rw [hst2]

/-- Composite branch equation: both scans found terminators but the full
match failed. -/
theorem readStep_eq_osc_none (c : List Char) (hlc : ¬c.length = 0)
    (hidx : escIdx c = some 0) (hl3 : ¬c.length < 3)
    (hpk : c.getD 1 escChar = ']') (hl4 : ¬c.length < 4)
    (h8 : c.getD 2 escChar = '8') (hsc : c.getD 3 escChar = ';') (n1 n2 : Nat)
    (hst1 : findSTFrom c 0 = StScan.found n1)
    (hst2 : findSTFrom c n1 = StScan.found n2)
    (hosc : matchOSC c = none) :
    readStep c = (AnsiToken.ESC, 1) := by
  rw [readStep_eq_osc c hlc hidx hl3 hpk hl4 h8 hsc, hst1]
  dsimp only
  rw [hst2]
  dsimp only
  rw [hosc]

/-- Composite branch equation: both scans found terminators and the full
match succeeded. -/
theorem readStep_eq_osc_some (c : List Char) (hlc : ¬c.length = 0)
    (hidx : escIdx c = some 0) (hl3 : ¬c.length < 3)
    (hpk : c.getD 1 escChar = ']') (hl4 : ¬c.length < 4)
    (h8 : c.getD 2 escChar = '8') (hsc : c.getD 3 escChar = ';')
    (n1 n2 : Nat) (u t : List Char) (len : Nat)
    (hst1 : findSTFrom c 0 = StScan.found n1)
    (hst2 : findSTFrom c n1 = StScan.found n2)
    (hosc : matchOSC c = some (u, t, len)) :
    readStep c = (AnsiToken.OSC u t, len) := by
  rw [readStep_eq_osc c hlc hidx hl3 hpk hl4 h8 hsc, hst1]
  dsimp only
  rw [hst2]
  dsimp only
  rw [hosc]

/-- Branch equation: the `(` introducer falls through to the defensive
end-of-buffer return. -/
theorem readStep_eq_paren (c : List Char) (hlc : ¬c.length = 0)
    (hidx : escIdx c = some 0) (hl3 : ¬c.length < 3)
    (hpk : c.getD 1 escChar = '(') :
    readStep c = (AnsiToken.EOS, 0) := by
  simp only [readStep]
  rw [if_neg hlc, hidx]
  dsimp only
  rw [if_neg (by omega : ¬(0 : Nat) < 0), if_neg hl3,
    if_neg (fun h => h.2.2 hpk), if_neg (by rw [hpk]; decide),
    if_neg (by rw [hpk]; decide)]


/-- The consumed count never exceeds the buffer length, and a consuming
token (not `incomplete`, not `end-of-buffer`) consumes at least one
character. -/
theorem readStep_le_pos (c : List Char) :
    (readStep c).2 ≤ c.length ∧
    ((readStep c).1 ≠ AnsiToken.INCESC → (readStep c).1 ≠ AnsiToken.EOS →
      1 ≤ (readStep c).2) := by
  by_cases hlc : c.length = 0
  · rw [readStep_eq_empty c hlc]
    simp
  · rcases hidx : escIdx c with _ | pos
    · rw [readStep_eq_text_all c hlc hidx]
      simp
      omega
    · have hpl := escIdx_lt_length c pos hidx
      by_cases hp0 : 0 < pos
      · rw [readStep_eq_text_pre c pos hlc hidx hp0]
        simp
        omega
      · have hpz : pos = 0 := by omega
        subst hpz
        by_cases hl3 : c.length < 3
        · rw [readStep_eq_short c hlc hidx hl3]
          simp
        · by_cases hbr : c.getD 1 escChar ≠ '[' ∧ c.getD 1 escChar ≠ ']' ∧
              c.getD 1 escChar ≠ '('
          · rw [readStep_eq_bare c hlc hidx hl3 hbr]
            simp
            omega
          · by_cases hpk : c.getD 1 escChar = '['
            · rw [readStep_eq_csi c hlc hidx hl3 hpk]
              rcases hcsi : matchCSI (c.drop 2) with _ | _ | ⟨p, ps, cm, len⟩
              · simp
              · simp
                omega
              · have hb := matchCSI_ok_bound (c.drop 2) p ps cm len hcsi
                simp only [List.length_drop] at hb
                dsimp only
                by_cases hun : p ≠ [] ∨ cm ≠ ['m']
                · rw [if_pos hun]
                  simp
                  omega
                · rw [if_neg hun]
                  simp
                  omega
            · by_cases hpk2 : c.getD 1 escChar = ']'
              · by_cases hl4 : c.length < 4
                · rw [readStep_eq_osc_short c hlc hidx hl3 hpk2 hl4]
                  simp
                · by_cases hm : c.getD 2 escChar ≠ '8' ∨ c.getD 3 escChar ≠ ';'
                  · rw [readStep_eq_osc_mismatch c hlc hidx hl3 hpk2 hl4 hm]
                    simp
                    omega
                  · push_neg at hm
                    rcases hst1 : findSTFrom c 0 with _ | _ | n1
                    · rw [readStep_eq_osc_nf1 c hlc hidx hl3 hpk2 hl4 hm.1 hm.2 hst1]
                      simp
                    · rw [readStep_eq_osc_ill1 c hlc hidx hl3 hpk2 hl4 hm.1 hm.2 hst1]
                      simp
                      omega
                    · rcases hst2 : findSTFrom c n1 with _ | _ | n2
                      · rw [readStep_eq_osc_nf2 c hlc hidx hl3 hpk2 hl4 hm.1 hm.2 n1
                          hst1 hst2]
                        simp
                      · rw [readStep_eq_osc_ill2 c hlc hidx hl3 hpk2 hl4 hm.1 hm.2 n1
                          hst1 hst2]
                        simp
                        omega
                      · rcases hosc : matchOSC c with _ | ⟨⟨u, t, len⟩⟩
                        · rw [readStep_eq_osc_none c hlc hidx hl3 hpk2 hl4 hm.1 hm.2
                            n1 n2 hst1 hst2 hosc]
                          simp
                          omega
                        · have hb := matchOSC_some_bound c u t len hosc
                          rw [readStep_eq_osc_some c hlc hidx hl3 hpk2 hl4 hm.1 hm.2
                            n1 n2 u t len hst1 hst2 hosc]
                          simp
                          omega
              · have hpk3 : c.getD 1 escChar = '(' := by
                  by_contra hno
                  exact hbr ⟨hpk, hpk2, hno⟩
                rw [readStep_eq_paren c hlc hidx hl3 hpk3]
                simp

/-- Unfolding: a scan from position zero is a scan of the whole buffer. -/
theorem findSTFrom_zero (b : List Char) : findSTFrom b 0 = findSTAux b 0 := by
  simp only [findSTFrom, List.drop_zero]

/-- Append stability of the tokenizer step: a step that consumes (and, for
text, does not drain the whole buffer) is unaffected by input appended
behind the buffer.  This is the heart of chunk-boundary independence. -/
theorem readStep_append_stable (c e : List Char) (hne : ¬c.length = 0)
    (hinc : (readStep c).1 ≠ AnsiToken.INCESC)
    (heos : (readStep c).1 ≠ AnsiToken.EOS)
    (htext : ∀ v, (readStep c).1 = AnsiToken.TEXT v → (readStep c).2 < c.length) :
    readStep (c ++ e) = readStep c := by
  have hlca : ¬(c ++ e).length = 0 := by
    rw [List.length_append]
    omega
  rcases hidx : escIdx c with _ | pos
  · exfalso
    have h1 := readStep_eq_text_all c hne hidx
    have h2 := htext c (by rw [h1])
    rw [h1] at h2
    exact absurd h2 (by omega)
  · have hpl := escIdx_lt_length c pos hidx
    have hidxa := escIdx_append_of_some c e pos hidx
    by_cases hp0 : 0 < pos
    · rw [readStep_eq_text_pre c pos hne hidx hp0,
        readStep_eq_text_pre (c ++ e) pos hlca hidxa hp0,
        List.take_append_of_le_length (le_of_lt hpl)]
    · have hpz : pos = 0 := by omega
      subst hpz
      by_cases hl3 : c.length < 3
      · exact absurd (by rw [readStep_eq_short c hne hidx hl3]) hinc
      · have hl3a : ¬(c ++ e).length < 3 := by
          rw [List.length_append]
          omega
        have hg1 : (c ++ e).getD 1 escChar = c.getD 1 escChar :=
          List.getD_append c e escChar 1 (by omega)
        by_cases hbr : c.getD 1 escChar ≠ '[' ∧ c.getD 1 escChar ≠ ']' ∧
            c.getD 1 escChar ≠ '('
        · have hbra : (c ++ e).getD 1 escChar ≠ '[' ∧ (c ++ e).getD 1 escChar ≠ ']' ∧
              (c ++ e).getD 1 escChar ≠ '(' := by
            rw [hg1]
            exact hbr
          rw [readStep_eq_bare (c ++ e) hlca hidxa hl3a hbra,
            readStep_eq_bare c hne hidx hl3 hbr]
        · by_cases hpk : c.getD 1 escChar = '['
          · have hpka : (c ++ e).getD 1 escChar = '[' := by rw [hg1]; exact hpk
            have hdrop2 : (c ++ e).drop 2 = c.drop 2 ++ e :=
              List.drop_append_of_le_length (by omega)
            rcases hcsi : matchCSI (c.drop 2) with _ | _ | ⟨p, ps, cm, len⟩
            · exact absurd (by rw [readStep_eq_csi c hne hidx hl3 hpk, hcsi]) hinc
            · have hstab : matchCSI ((c ++ e).drop 2) = CsiMatch.illegal := by
                rw [hdrop2, matchCSI_append_stable (c.drop 2) e (by rw [hcsi]; simp),
                  hcsi]
              rw [readStep_eq_csi (c ++ e) hlca hidxa hl3a hpka, hstab,
                readStep_eq_csi c hne hidx hl3 hpk, hcsi]
            · have hstab : matchCSI ((c ++ e).drop 2) = CsiMatch.ok p ps cm len := by
                rw [hdrop2, matchCSI_append_stable (c.drop 2) e (by rw [hcsi]; simp),
                  hcsi]
              rw [readStep_eq_csi (c ++ e) hlca hidxa hl3a hpka, hstab,
                readStep_eq_csi c hne hidx hl3 hpk, hcsi]
          · by_cases hpk2 : c.getD 1 escChar = ']'
            · have hpk2a : (c ++ e).getD 1 escChar = ']' := by rw [hg1]; exact hpk2
              by_cases hl4 : c.length < 4
              · exact absurd
                  (by rw [readStep_eq_osc_short c hne hidx hl3 hpk2 hl4]) hinc
              · have hl4a : ¬(c ++ e).length < 4 := by
                  rw [List.length_append]
                  omega
                have hg2 : (c ++ e).getD 2 escChar = c.getD 2 escChar :=
                  List.getD_append c e escChar 2 (by omega)
                have hg3 : (c ++ e).getD 3 escChar = c.getD 3 escChar :=
                  List.getD_append c e escChar 3 (by omega)
                by_cases hm : c.getD 2 escChar ≠ '8' ∨ c.getD 3 escChar ≠ ';'
                · have hma : (c ++ e).getD 2 escChar ≠ '8' ∨
                      (c ++ e).getD 3 escChar ≠ ';' := by
                    rw [hg2, hg3]
                    exact hm
                  rw [readStep_eq_osc_mismatch (c ++ e) hlca hidxa hl3a hpk2a hl4a hma,
                    readStep_eq_osc_mismatch c hne hidx hl3 hpk2 hl4 hm]
                · push_neg at hm
                  have hma8 : (c ++ e).getD 2 escChar = '8' := by rw [hg2]; exact hm.1
                  have hmas : (c ++ e).getD 3 escChar = ';' := by rw [hg3]; exact hm.2
                  rcases hst1 : findSTFrom c 0 with _ | _ | n1
                  · exact absurd
                      (by rw [readStep_eq_osc_nf1 c hne hidx hl3 hpk2 hl4 hm.1 hm.2
                        hst1]) hinc
                  · have hst1x : findSTAux c 0 = StScan.illegal := by
                      rw [← findSTFrom_zero]
                      exact hst1
                    have hst1a : findSTFrom (c ++ e) 0 = StScan.illegal := by
                      rw [findSTFrom_zero]
                      exact findSTAux_append_illegal c e 0 hst1x
                    rw [readStep_eq_osc_ill1 (c ++ e) hlca hidxa hl3a hpk2a hl4a hma8
                        hmas hst1a,
                      readStep_eq_osc_ill1 c hne hidx hl3 hpk2 hl4 hm.1 hm.2 hst1]
                  · have hst1x : findSTAux c 0 = StScan.found n1 := by
                      rw [← findSTFrom_zero]
                      exact hst1
                    have hst1a : findSTFrom (c ++ e) 0 = StScan.found n1 := by
                      rw [findSTFrom_zero]
                      exact findSTAux_append_found c e 0 n1 hst1x
                    have hn1le : n1 ≤ c.length := by
                      have := findSTAux_found_le c 0 n1 hst1x
                      omega
                    have hdropn1 : (c ++ e).drop n1 = c.drop n1 ++ e :=
                      List.drop_append_of_le_length hn1le
                    rcases hst2 : findSTFrom c n1 with _ | _ | n2
                    · exact absurd
                        (by rw [readStep_eq_osc_nf2 c hne hidx hl3 hpk2 hl4 hm.1 hm.2
                          n1 hst1 hst2]) hinc
                    · have hst2x : findSTAux (c.drop n1) n1 = StScan.illegal := hst2
                      have hst2a : findSTFrom (c ++ e) n1 = StScan.illegal := by
                        simp only [findSTFrom, hdropn1]
                        exact findSTAux_append_illegal (c.drop n1) e n1 hst2x
                      rw [readStep_eq_osc_ill2 (c ++ e) hlca hidxa hl3a hpk2a hl4a hma8
                          hmas n1 hst1a hst2a,
                        readStep_eq_osc_ill2 c hne hidx hl3 hpk2 hl4 hm.1 hm.2 n1 hst1
                          hst2]
                    · have hst2x : findSTAux (c.drop n1) n1 = StScan.found n2 := hst2
                      have hst2a : findSTFrom (c ++ e) n1 = StScan.found n2 := by
                        simp only [findSTFrom, hdropn1]
                        exact findSTAux_append_found (c.drop n1) e n1 n2 hst2x
                      rcases hosc : matchOSC c with _ | ⟨⟨u, t, len⟩⟩
                      · rcases hc : c with _ | ⟨a, _ | ⟨b, _ | ⟨d, _ | ⟨f, rest⟩⟩⟩⟩ <;>
                          rw [hc] at hl4 <;> try (exfalso; revert hl4; simp <;> omega)
                        rw [hc] at hidx hpk2 hm hst1x hst2x hosc
                        have ha : a = escChar := escIdx_zero_head a _ hidx
                        subst ha
                        have hb2 : b = ']' := by
                          simpa [List.getD_cons_succ, List.getD_cons_zero] using hpk2
                        subst hb2
                        have hd8 : d = '8' := by
                          simpa [List.getD_cons_succ, List.getD_cons_zero] using hm.1
                        subst hd8
                        have hfs : f = ';' := by
                          simpa [List.getD_cons_succ, List.getD_cons_zero] using hm.2
                        subst hfs
                        have h1w : findSTAux rest 4 = StScan.found n1 := by
                          rw [findSTAux_intro_walk rest 0] at hst1x
                          simpa using hst1x
                        have hosca := matchOSC_none_stable rest e n1 n2 h1w hst2x hosc
                        have hosca2 :
                            matchOSC ((escChar :: ']' :: '8' :: ';' :: rest) ++ e) =
                              none := by
                          simp only [List.cons_append]
                          exact hosca
                        rw [hc] at hne hlca hidxa hl3 hl3a hpk2a hl4a hma8 hmas
                        rw [hc] at hst1 hst2 hst1a hst2a
                        rw [readStep_eq_osc_none
                            ((escChar :: ']' :: '8' :: ';' :: rest) ++ e) hlca hidxa
                            hl3a hpk2a hl4a hma8 hmas n1 n2 hst1a hst2a hosca2,
                          readStep_eq_osc_none (escChar :: ']' :: '8' :: ';' :: rest)
                            hne hidx hl3 hpk2 hl4 hm.1 hm.2 n1 n2 hst1 hst2 hosc]
                      · have hosca := matchOSC_some_append c e u t len hosc
                        rw [readStep_eq_osc_some (c ++ e) hlca hidxa hl3a hpk2a hl4a
                            hma8 hmas n1 n2 u t len hst1a hst2a hosca,
                          readStep_eq_osc_some c hne hidx hl3 hpk2 hl4 hm.1 hm.2 n1 n2
                            u t len hst1 hst2 hosc]
            · have hpk3 : c.getD 1 escChar = '(' := by
                by_contra hno
                exact hbr ⟨hpk, hpk2, hno⟩
              exact absurd (by rw [readStep_eq_paren c hne hidx hl3 hpk3]) heos

/-! ## Write-loop machinery for chunk composition -/

/-- Per-character expansion of the empty block list. -/
theorem render_nil : render [] = [] := rfl

/-- Per-character expansion of a block cons. -/
theorem render_cons (b : AnsiBlock) (B : List AnsiBlock) :
    render (b :: B) = (b.value.map fun c => (c, b.style, b.url)) ++ render B := by
  simp [render]

/-- Per-character expansion distributes over block-list append. -/
theorem render_append (B1 B2 : List AnsiBlock) :
    render (B1 ++ B2) = render B1 ++ render B2 := by
  simp [render]

/-- One successful loop iteration on an empty buffer stops at once. -/
theorem writeLoopF_succ_empty (f : Nat) (a : Ansi) (hb : a.buffer = []) :
    writeLoopF (f + 1) a = some (a, []) := by
  simp only [writeLoopF]
  rw [if_pos hb]

/-- A terminating run from an empty buffer returns the state unchanged and
no blocks. -/
theorem writeLoopF_some_of_empty (f : Nat) (a : Ansi) (r : Ansi × List AnsiBlock)
    (hb : a.buffer = []) (h : writeLoopF f a = some r) : r = (a, []) := by
  cases f with
  | zero => exact absurd h (by simp [writeLoopF])
  | succ n =>
    rw [writeLoopF_succ_empty n a hb] at h
    exact (Option.some.inj h).symm

/-- One loop iteration on a `ESC` token: the token is discarded and the
loop continues on the shrunk buffer. -/
theorem writeLoopF_succ_esc (f : Nat) (a : Ansi) (k : Nat) (hb : ¬a.buffer = [])
    (h : readStep a.buffer = (AnsiToken.ESC, k)) :
    writeLoopF (f + 1) a = writeLoopF f { a with buffer := a.buffer.drop k } := by
  have ht : readToken a.buffer = (AnsiToken.ESC, a.buffer.drop k) := by
    simp [readToken, h]
  simp only [writeLoopF]
  rw [if_neg hb, ht]

/-- One loop iteration on an `UNKNOWN` token: discarded, loop continues. -/
theorem writeLoopF_succ_unknown (f : Nat) (a : Ansi) (k : Nat) (hb : ¬a.buffer = [])
    (h : readStep a.buffer = (AnsiToken.UNKNOWN, k)) :
    writeLoopF (f + 1) a = writeLoopF f { a with buffer := a.buffer.drop k } := by
  have ht : readToken a.buffer = (AnsiToken.UNKNOWN, a.buffer.drop k) := by
    simp [readToken, h]
  simp only [writeLoopF]
  rw [if_neg hb, ht]

/-- One loop iteration on an `SGR` token: the style is updated and the
loop continues. -/
theorem writeLoopF_succ_sgr (f : Nat) (a : Ansi) (signal : List Char) (k : Nat)
    (hb : ¬a.buffer = []) (h : readStep a.buffer = (AnsiToken.SGR signal, k)) :
    writeLoopF (f + 1) a =
      writeLoopF f
        { a with buffer := a.buffer.drop k,
                 style := process a.colors16 a.colors256 signal a.style } := by
  have ht : readToken a.buffer = (AnsiToken.SGR signal, a.buffer.drop k) := by
    simp [readToken, h]
  simp only [writeLoopF]
  rw [if_neg hb, ht]

/-- One loop iteration on a `TEXT` token: a block with a snapshot of the
current style is emitted in front of the rest of the run. -/
theorem writeLoopF_succ_text (f : Nat) (a : Ansi) (v : List Char) (k : Nat)
    (hb : ¬a.buffer = []) (h : readStep a.buffer = (AnsiToken.TEXT v, k)) :
    writeLoopF (f + 1) a =
      (writeLoopF f { a with buffer := a.buffer.drop k }).map fun p =>
        (p.1, ⟨v, a.style, none⟩ :: p.2) := by
  have ht : readToken a.buffer = (AnsiToken.TEXT v, a.buffer.drop k) := by
    simp [readToken, h]
  simp only [writeLoopF]
  rw [if_neg hb, ht]

/-- One loop iteration on an `OSC` token: a hyperlink block with a
snapshot of the current style is emitted in front of the rest of the run. -/
theorem writeLoopF_succ_osc (f : Nat) (a : Ansi) (url v : List Char) (k : Nat)
    (hb : ¬a.buffer = []) (h : readStep a.buffer = (AnsiToken.OSC url v, k)) :
    writeLoopF (f + 1) a =
      (writeLoopF f { a with buffer := a.buffer.drop k }).map fun p =>
        (p.1, ⟨v, a.style, some url⟩ :: p.2) := by
  have ht : readToken a.buffer = (AnsiToken.OSC url v, a.buffer.drop k) := by
    simp [readToken, h]
  simp only [writeLoopF]
  rw [if_neg hb, ht]

/-- Fuel monotonicity: a run that terminates within `f` iterations
terminates with the same result at any larger fuel. -/
theorem writeLoopF_mono (f : Nat) :
    ∀ (g : Nat) (a : Ansi) (r : Ansi × List AnsiBlock), f ≤ g →
      writeLoopF f a = some r → writeLoopF g a = some r := by
  induction f with
  | zero =>
    intro g a r _ h
    exact absurd h (by simp [writeLoopF])
  | succ n ih =>
    intro g a r hfg h
    obtain ⟨m, rfl⟩ : ∃ m, g = m + 1 := by
      cases g with
      | zero => omega
      | succ m => exact ⟨m, rfl⟩
    have hnm : n ≤ m := by omega
    by_cases hb : a.buffer = []
    · rw [writeLoopF_succ_empty n a hb] at h
      rw [writeLoopF_succ_empty m a hb]
      exact h
    · simp only [writeLoopF] at h ⊢
      rw [if_neg hb] at h ⊢
      rcases ht : readToken a.buffer with ⟨tok, b⟩
      rw [ht] at h
      cases tok with
      | EOS => exact ih m _ r hnm h
      | INCESC => exact ih m _ r hnm h
      | ESC => exact ih m _ r hnm h
      | UNKNOWN => exact ih m _ r hnm h
      | SGR signal => exact ih m _ r hnm h
      | TEXT v =>
        dsimp only at h ⊢
        rcases hx : writeLoopF n { a with buffer := b } with _ | p
        · rw [hx] at h
          exact absurd h (by simp)
        · rw [ih m _ p hnm hx]
          rw [hx] at h
          exact h
      | OSC url v =>
        dsimp only at h ⊢
        rcases hx : writeLoopF n { a with buffer := b } with _ | p
        · rw [hx] at h
          exact absurd h (by simp)
        · rw [ih m _ p hnm hx]
          rw [hx] at h
          exact h

/-- A terminating run always drains the buffer: the final state has an
empty buffer (the `while` condition is false on exit). -/
theorem writeLoopF_some_buffer (f : Nat) :
    ∀ (a a' : Ansi) (B : List AnsiBlock),
      writeLoopF f a = some (a', B) → a'.buffer = [] := by
  induction f with
  | zero =>
    intro a a' B h
    exact absurd h (by simp [writeLoopF])
  | succ n ih =>
    intro a a' B h
    by_cases hb : a.buffer = []
    · rw [writeLoopF_succ_empty n a hb] at h
      obtain ⟨h1, h2⟩ := Prod.mk.injEq .. ▸ Option.some.inj h
      rw [← h1]
      exact hb
    · simp only [writeLoopF] at h
      rw [if_neg hb] at h
      rcases ht : readToken a.buffer with ⟨tok, b⟩
      rw [ht] at h
      cases tok with
      | EOS => exact ih _ a' B h
      | INCESC => exact ih _ a' B h
      | ESC => exact ih _ a' B h
      | UNKNOWN => exact ih _ a' B h
      | SGR signal => exact ih _ a' B h
      | TEXT v =>
        dsimp only at h
        rcases hx : writeLoopF n { a with buffer := b } with _ | p
        · rw [hx] at h
          exact absurd h (by simp)
        · rw [hx] at h
          simp only [Option.map_some'] at h
          obtain ⟨h1, h2⟩ := Prod.mk.injEq .. ▸ Option.some.inj h
          rw [← h1]
          exact ih _ p.1 p.2 (by rw [hx])
      | OSC url v =>
        dsimp only at h
        rcases hx : writeLoopF n { a with buffer := b } with _ | p
        · rw [hx] at h
          exact absurd h (by simp)
        · rw [hx] at h
          simp only [Option.map_some'] at h
          obtain ⟨h1, h2⟩ := Prod.mk.injEq .. ▸ Option.some.inj h
          rw [← h1]
          exact ih _ p.1 p.2 (by rw [hx])

/-- Fuel adequacy: if the loop terminates at all, then fuel
`buffer.length + 1` already suffices (each consuming iteration removes at
least one character), with the same result.  This justifies the fuel
chosen in `write`. -/
theorem writeLoopF_adequate (f : Nat) :
    ∀ (a : Ansi) (r : Ansi × List AnsiBlock), writeLoopF f a = some r →
      writeLoopF (a.buffer.length + 1) a = some r := by
  induction f with
  | zero =>
    intro a r h
    exact absurd h (by simp [writeLoopF])
  | succ n ih =>
    intro a r h
    by_cases hb : a.buffer = []
    · rw [writeLoopF_succ_empty n a hb] at h
      rw [writeLoopF_succ_empty a.buffer.length a hb]
      exact h
    · have hl1 : 0 < a.buffer.length := List.length_pos.mpr hb
      rcases hrs : readStep a.buffer with ⟨tok, k⟩
      obtain ⟨hk_le, hk_pos⟩ := readStep_le_pos a.buffer
      rw [hrs] at hk_le hk_pos
      dsimp only at hk_le hk_pos
      have hk1 : 1 ≤ k := by
        by_contra hk0
        have hkz : k = 0 := by omega
        subst hkz
        cases tok with
        | EOS =>
          rw [writeLoopF_stuck (n + 1) a hb (Or.inr (by rw [hrs]))] at h
          exact absurd h (by simp)
        | INCESC =>
          rw [writeLoopF_stuck (n + 1) a hb (Or.inl (by rw [hrs]))] at h
          exact absurd h (by simp)
        | TEXT v => exact absurd (hk_pos (by simp) (by simp)) (by omega)
        | ESC => exact absurd (hk_pos (by simp) (by simp)) (by omega)
        | UNKNOWN => exact absurd (hk_pos (by simp) (by simp)) (by omega)
        | SGR signal => exact absurd (hk_pos (by simp) (by simp)) (by omega)
        | OSC url v => exact absurd (hk_pos (by simp) (by simp)) (by omega)
      cases tok with
      | EOS =>
        rw [writeLoopF_stuck (n + 1) a hb (Or.inr (by rw [hrs]))] at h
        exact absurd h (by simp)
      | INCESC =>
        rw [writeLoopF_stuck (n + 1) a hb (Or.inl (by rw [hrs]))] at h
        exact absurd h (by simp)
      | ESC =>
        rw [writeLoopF_succ_esc n a k hb hrs] at h
        rw [writeLoopF_succ_esc a.buffer.length a k hb hrs]
        exact writeLoopF_mono _ _ _ r (by
          show (a.buffer.drop k).length + 1 ≤ a.buffer.length
          simp only [List.length_drop]
          omega) (ih _ r h)
      | UNKNOWN =>
        rw [writeLoopF_succ_unknown n a k hb hrs] at h
        rw [writeLoopF_succ_unknown a.buffer.length a k hb hrs]
        exact writeLoopF_mono _ _ _ r (by
          show (a.buffer.drop k).length + 1 ≤ a.buffer.length
          simp only [List.length_drop]
          omega) (ih _ r h)
      | SGR signal =>
        rw [writeLoopF_succ_sgr n a signal k hb hrs] at h
        rw [writeLoopF_succ_sgr a.buffer.length a signal k hb hrs]
        exact writeLoopF_mono _ _ _ r (by
          show (a.buffer.drop k).length + 1 ≤ a.buffer.length
          simp only [List.length_drop]
          omega) (ih _ r h)
      | TEXT v =>
        rw [writeLoopF_succ_text n a v k hb hrs] at h
        rw [writeLoopF_succ_text a.buffer.length a v k hb hrs]
        rcases hx : writeLoopF n { a with buffer := a.buffer.drop k } with _ | p
        · rw [hx] at h
          exact absurd h (by simp)
        · rw [hx] at h
          rw [writeLoopF_mono _ _ _ p (by
            show (a.buffer.drop k).length + 1 ≤ a.buffer.length
            simp only [List.length_drop]
            omega) (ih _ p hx)]
          exact h
      | OSC url v =>
        rw [writeLoopF_succ_osc n a url v k hb hrs] at h
        rw [writeLoopF_succ_osc a.buffer.length a url v k hb hrs]
        rcases hx : writeLoopF n { a with buffer := a.buffer.drop k } with _ | p
        · rw [hx] at h
          exact absurd h (by simp)
        · rw [hx] at h
          rw [writeLoopF_mono _ _ _ p (by
            show (a.buffer.drop k).length + 1 ≤ a.buffer.length
            simp only [List.length_drop]
            omega) (ih _ p hx)]
          exact h

/-- The only tokenizer step that consumes the whole buffer as text is the
escape-free branch: a `TEXT` token covering the full length forces the
buffer to contain no escape byte and the token value to be the buffer. -/
theorem readStep_text_full (c v : List Char) (hne : ¬c.length = 0)
    (h : readStep c = (AnsiToken.TEXT v, c.length)) :
    escIdx c = none ∧ v = c := by
  rcases hidx : escIdx c with _ | pos
  · rw [readStep_eq_text_all c hne hidx] at h
    have h1 : AnsiToken.TEXT c = AnsiToken.TEXT v := congrArg Prod.fst h
    exact ⟨rfl, (AnsiToken.TEXT.inj h1).symm⟩
  · exfalso
    have hpl := escIdx_lt_length c pos hidx
    by_cases hp0 : 0 < pos
    · rw [readStep_eq_text_pre c pos hne hidx hp0] at h
      have h2 : pos = c.length := congrArg Prod.snd h
      omega
    · have hpz : pos = 0 := by omega
      subst hpz
      by_cases hl3 : c.length < 3
      · rw [readStep_eq_short c hne hidx hl3] at h
        simp at h
      · by_cases hbr : c.getD 1 escChar ≠ '[' ∧ c.getD 1 escChar ≠ ']' ∧
            c.getD 1 escChar ≠ '('
        · rw [readStep_eq_bare c hne hidx hl3 hbr] at h
          simp at h
        · by_cases hpk : c.getD 1 escChar = '['
          · rw [readStep_eq_csi c hne hidx hl3 hpk] at h
            rcases hcsi : matchCSI (c.drop 2) with _ | _ | ⟨p, ps, cm, len⟩ <;>
              rw [hcsi] at h <;> dsimp only at h
            · simp at h
            · simp at h
            · by_cases hun : p ≠ [] ∨ cm ≠ ['m']
              · rw [if_pos hun] at h
                simp at h
              · rw [if_neg hun] at h
                simp at h
          · by_cases hpk2 : c.getD 1 escChar = ']'
            · by_cases hl4 : c.length < 4
              · rw [readStep_eq_osc_short c hne hidx hl3 hpk2 hl4] at h
                simp at h
              · by_cases hm : c.getD 2 escChar ≠ '8' ∨ c.getD 3 escChar ≠ ';'
                · rw [readStep_eq_osc_mismatch c hne hidx hl3 hpk2 hl4 hm] at h
                  simp at h
                · push_neg at hm
                  rcases hst1 : findSTFrom c 0 with _ | _ | n1
                  · rw [readStep_eq_osc_nf1 c hne hidx hl3 hpk2 hl4 hm.1 hm.2
                      hst1] at h
                    simp at h
                  · rw [readStep_eq_osc_ill1 c hne hidx hl3 hpk2 hl4 hm.1 hm.2
                      hst1] at h
                    simp at h
                  · rcases hst2 : findSTFrom c n1 with _ | _ | n2
                    · rw [readStep_eq_osc_nf2 c hne hidx hl3 hpk2 hl4 hm.1 hm.2 n1
                        hst1 hst2] at h
                      simp at h
                    · rw [readStep_eq_osc_ill2 c hne hidx hl3 hpk2 hl4 hm.1 hm.2 n1
                        hst1 hst2] at h
                      simp at h
                    · rcases hosc : matchOSC c with _ | ⟨⟨u, t, len⟩⟩
                      · rw [readStep_eq_osc_none c hne hidx hl3 hpk2 hl4 hm.1 hm.2
                          n1 n2 hst1 hst2 hosc] at h
                        simp at h
                      · rw [readStep_eq_osc_some c hne hidx hl3 hpk2 hl4 hm.1 hm.2
                          n1 n2 u t len hst1 hst2 hosc] at h
                        simp at h
            · have hpk3 : c.getD 1 escChar = '(' := by
                by_contra hno
                exact hbr ⟨hpk, hpk2, hno⟩
              rw [readStep_eq_paren c hne hidx hl3 hpk3] at h
              simp at h

/-- Chunk composition for the write loop: if a run on buffer `b1`
terminates and, from its final state, a run on `b2` terminates, then the
single run on `b1 ++ b2` terminates in the same final state and its blocks
expand per character to the concatenation of the two runs' expansions. -/
theorem writeLoopF_compose (f : Nat) :
    ∀ (b1 b2 : List Char) (st : AnsiStyle) (c16 c256 : List AnsiColor)
      (σ1 σ2 : Ansi) (g : Nat) (B1 B2 : List AnsiBlock),
      writeLoopF f ⟨b1, st, c16, c256⟩ = some (σ1, B1) →
      writeLoopF g { σ1 with buffer := b2 } = some (σ2, B2) →
      ∃ B, writeLoopF (f + g) ⟨b1 ++ b2, st, c16, c256⟩ = some (σ2, B) ∧
        render B = render B1 ++ render B2 := by
  induction f with
  | zero =>
    intro b1 b2 st c16 c256 σ1 σ2 g B1 B2 h1 h2
    exact absurd h1 (by simp [writeLoopF])
  | succ n ih =>
    intro b1 b2 st c16 c256 σ1 σ2 g B1 B2 h1 h2
    by_cases hb : b1 = []
    · subst hb
      have hfin := writeLoopF_some_of_empty (n + 1) ⟨[], st, c16, c256⟩ (σ1, B1) rfl h1
      have hσ1 : σ1 = ⟨[], st, c16, c256⟩ := congrArg Prod.fst hfin
      have hB1 : B1 = [] := congrArg Prod.snd hfin
      subst hσ1
      subst hB1
      have h2' : writeLoopF g ⟨b2, st, c16, c256⟩ = some (σ2, B2) := h2
      refine ⟨B2, ?_, by simp [render]⟩
      exact writeLoopF_mono g (n + 1 + g) ⟨b2, st, c16, c256⟩ (σ2, B2) (by omega) h2'
    · have hlne : ¬b1.length = 0 := by simpa using hb
      have hbne : ¬(⟨b1, st, c16, c256⟩ : Ansi).buffer = [] := hb
      have hbc : ¬(⟨b1 ++ b2, st, c16, c256⟩ : Ansi).buffer = [] := by
        show ¬b1 ++ b2 = []
        simp [hb]
      have hlnec : ¬(b1 ++ b2).length = 0 := by
        rw [List.length_append]
        omega
      rcases hrs : readStep b1 with ⟨tok, k⟩
      obtain ⟨hk_le, hk_pos⟩ := readStep_le_pos b1
      rw [hrs] at hk_le hk_pos
      dsimp only at hk_le hk_pos
      cases tok with
      | EOS =>
        rw [writeLoopF_stuck (n + 1) ⟨b1, st, c16, c256⟩ hbne
          (Or.inr (by show (readStep b1).1 = _; rw [hrs]))] at h1
        exact absurd h1 (by simp)
      | INCESC =>
        rw [writeLoopF_stuck (n + 1) ⟨b1, st, c16, c256⟩ hbne
          (Or.inl (by show (readStep b1).1 = _; rw [hrs]))] at h1
        exact absurd h1 (by simp)
      | ESC =>
        have hstab : readStep (b1 ++ b2) = (AnsiToken.ESC, k) := by
          rw [readStep_append_stable b1 b2 hlne (by rw [hrs]; simp) (by rw [hrs]; simp)
            (fun v' hv' => by rw [hrs] at hv'; simp at hv'), hrs]
        rw [writeLoopF_succ_esc n ⟨b1, st, c16, c256⟩ k hbne hrs] at h1
        have h1' : writeLoopF n ⟨b1.drop k, st, c16, c256⟩ = some (σ1, B1) := h1
        obtain ⟨B, hB, hr⟩ := ih (b1.drop k) b2 st c16 c256 σ1 σ2 g B1 B2 h1' h2
        refine ⟨B, ?_, hr⟩
        rw [show n + 1 + g = (n + g) + 1 from by omega,
          writeLoopF_succ_esc (n + g) ⟨b1 ++ b2, st, c16, c256⟩ k hbc hstab]
        show writeLoopF (n + g) ⟨(b1 ++ b2).drop k, st, c16, c256⟩ = some (σ2, B)
        rw [List.drop_append_of_le_length hk_le]
        exact hB
      | UNKNOWN =>
        have hstab : readStep (b1 ++ b2) = (AnsiToken.UNKNOWN, k) := by
          rw [readStep_append_stable b1 b2 hlne (by rw [hrs]; simp) (by rw [hrs]; simp)
            (fun v' hv' => by rw [hrs] at hv'; simp at hv'), hrs]
        rw [writeLoopF_succ_unknown n ⟨b1, st, c16, c256⟩ k hbne hrs] at h1
        have h1' : writeLoopF n ⟨b1.drop k, st, c16, c256⟩ = some (σ1, B1) := h1
        obtain ⟨B, hB, hr⟩ := ih (b1.drop k) b2 st c16 c256 σ1 σ2 g B1 B2 h1' h2
        refine ⟨B, ?_, hr⟩
        rw [show n + 1 + g = (n + g) + 1 from by omega,
          writeLoopF_succ_unknown (n + g) ⟨b1 ++ b2, st, c16, c256⟩ k hbc hstab]
        show writeLoopF (n + g) ⟨(b1 ++ b2).drop k, st, c16, c256⟩ = some (σ2, B)
        rw [List.drop_append_of_le_length hk_le]
        exact hB
      | SGR signal =>
        have hstab : readStep (b1 ++ b2) = (AnsiToken.SGR signal, k) := by
          rw [readStep_append_stable b1 b2 hlne (by rw [hrs]; simp) (by rw [hrs]; simp)
            (fun v' hv' => by rw [hrs] at hv'; simp at hv'), hrs]
        rw [writeLoopF_succ_sgr n ⟨b1, st, c16, c256⟩ signal k hbne hrs] at h1
        have h1' : writeLoopF n ⟨b1.drop k, process c16 c256 signal st, c16, c256⟩ =
            some (σ1, B1) := h1
        obtain ⟨B, hB, hr⟩ :=
          ih (b1.drop k) b2 (process c16 c256 signal st) c16 c256 σ1 σ2 g B1 B2 h1' h2
        refine ⟨B, ?_, hr⟩
        rw [show n + 1 + g = (n + g) + 1 from by omega,
          writeLoopF_succ_sgr (n + g) ⟨b1 ++ b2, st, c16, c256⟩ signal k hbc hstab]
        show writeLoopF (n + g)
          ⟨(b1 ++ b2).drop k, process c16 c256 signal st, c16, c256⟩ = some (σ2, B)
        rw [List.drop_append_of_le_length hk_le]
        exact hB
      | OSC url v =>
        have hstab : readStep (b1 ++ b2) = (AnsiToken.OSC url v, k) := by
          rw [readStep_append_stable b1 b2 hlne (by rw [hrs]; simp) (by rw [hrs]; simp)
            (fun v' hv' => by rw [hrs] at hv'; simp at hv'), hrs]
        rw [writeLoopF_succ_osc n ⟨b1, st, c16, c256⟩ url v k hbne hrs] at h1
        have h1' : (writeLoopF n ⟨b1.drop k, st, c16, c256⟩).map
            (fun p => (p.1, ⟨v, st, some url⟩ :: p.2)) = some (σ1, B1) := h1
        rcases hx : writeLoopF n ⟨b1.drop k, st, c16, c256⟩ with _ | p
        · rw [hx] at h1'
          exact absurd h1' (by simp)
        · rw [hx] at h1'
          simp only [Option.map_some'] at h1'
          have hp := Option.some.inj h1'
          have hσ1 : σ1 = p.1 := (congrArg Prod.fst hp).symm
          have hB1 : B1 = ⟨v, st, some url⟩ :: p.2 := (congrArg Prod.snd hp).symm
          subst hσ1
          subst hB1
          obtain ⟨B, hB, hr⟩ := ih (b1.drop k) b2 st c16 c256 p.1 σ2 g p.2 B2 hx h2
          refine ⟨⟨v, st, some url⟩ :: B, ?_, ?_⟩
          · rw [show n + 1 + g = (n + g) + 1 from by omega,
              writeLoopF_succ_osc (n + g) ⟨b1 ++ b2, st, c16, c256⟩ url v k hbc hstab]
            show (writeLoopF (n + g) ⟨(b1 ++ b2).drop k, st, c16, c256⟩).map
              (fun q => (q.1, ⟨v, st, some url⟩ :: q.2)) =
                some (σ2, ⟨v, st, some url⟩ :: B)
            rw [List.drop_append_of_le_length hk_le, hB]
            rfl
          · rw [render_cons, render_cons, hr, List.append_assoc]
      | TEXT v =>
        by_cases hfull : k = b1.length
        · subst hfull
          obtain ⟨hidxn, hvc⟩ := readStep_text_full b1 v hlne hrs
          subst v
          rw [writeLoopF_succ_text n ⟨b1, st, c16, c256⟩ b1 b1.length hbne hrs] at h1
          have h1' : (writeLoopF n ⟨b1.drop b1.length, st, c16, c256⟩).map
              (fun p => (p.1, ⟨b1, st, none⟩ :: p.2)) = some (σ1, B1) := h1
          rw [List.drop_length] at h1'
          obtain ⟨m, rfl⟩ : ∃ m, n = m + 1 := by
            cases n with
            | zero => exact absurd h1' (by simp [writeLoopF])
            | succ m => exact ⟨m, rfl⟩
          rw [writeLoopF_succ_empty m ⟨[], st, c16, c256⟩ rfl] at h1'
          simp only [Option.map_some'] at h1'
          have hp := Option.some.inj h1'
          have hσ1 : σ1 = ⟨[], st, c16, c256⟩ := (congrArg Prod.fst hp).symm
          have hB1 : B1 = [⟨b1, st, none⟩] := (congrArg Prod.snd hp).symm
          subst hσ1
          subst hB1
          have h2' : writeLoopF g ⟨b2, st, c16, c256⟩ = some (σ2, B2) := h2
          by_cases hb2 : b2 = []
          · subst hb2
            have hfin := writeLoopF_some_of_empty g ⟨[], st, c16, c256⟩ (σ2, B2) rfl h2'
            have hσ2 : σ2 = ⟨[], st, c16, c256⟩ := congrArg Prod.fst hfin
            have hB2 : B2 = [] := congrArg Prod.snd hfin
            subst hσ2
            subst hB2
            refine ⟨[⟨b1, st, none⟩], ?_, by simp [render]⟩
            rw [List.append_nil,
              show m + 1 + 1 + g = (m + 1 + g) + 1 from by omega,
              writeLoopF_succ_text (m + 1 + g) ⟨b1, st, c16, c256⟩ b1 b1.length hbne hrs]
            show (writeLoopF (m + 1 + g) ⟨b1.drop b1.length, st, c16, c256⟩).map
              (fun q => (q.1, ⟨b1, st, none⟩ :: q.2)) =
                some (⟨[], st, c16, c256⟩, [⟨b1, st, none⟩])
            rw [List.drop_length, show m + 1 + g = (m + g) + 1 from by omega,
              writeLoopF_succ_empty (m + g) ⟨[], st, c16, c256⟩ rfl]
            rfl
          · have hlne2 : ¬b2.length = 0 := by simpa using hb2
            rcases hj : escIdx b2 with _ | j
            · have hidxc : escIdx (b1 ++ b2) = none := by
                rw [escIdx_append_of_none b1 b2 hidxn, hj]
                rfl
              have hrsc : readStep (b1 ++ b2) =
                  (AnsiToken.TEXT (b1 ++ b2), (b1 ++ b2).length) :=
                readStep_eq_text_all (b1 ++ b2) hlnec hidxc
              have hrs2 : readStep b2 = (AnsiToken.TEXT b2, b2.length) :=
                readStep_eq_text_all b2 hlne2 hj
              obtain ⟨g', rfl⟩ : ∃ g', g = g' + 1 := by
                cases g with
                | zero => exact absurd h2' (by simp [writeLoopF])
                | succ x => exact ⟨x, rfl⟩
              rw [writeLoopF_succ_text g' ⟨b2, st, c16, c256⟩ b2 b2.length hb2 hrs2] at h2'
              have h2'' : (writeLoopF g' ⟨b2.drop b2.length, st, c16, c256⟩).map
                  (fun p => (p.1, ⟨b2, st, none⟩ :: p.2)) = some (σ2, B2) := h2'
              rw [List.drop_length] at h2''
              obtain ⟨g2, rfl⟩ : ∃ g2, g' = g2 + 1 := by
                cases g' with
                | zero => exact absurd h2'' (by simp [writeLoopF])
                | succ x => exact ⟨x, rfl⟩
              rw [writeLoopF_succ_empty g2 ⟨[], st, c16, c256⟩ rfl] at h2''
              simp only [Option.map_some'] at h2''
              have hp2 := Option.some.inj h2''
              have hσ2 : σ2 = ⟨[], st, c16, c256⟩ := (congrArg Prod.fst hp2).symm
              have hB2 : B2 = [⟨b2, st, none⟩] := (congrArg Prod.snd hp2).symm
              subst hσ2
              subst hB2
              refine ⟨[⟨b1 ++ b2, st, none⟩], ?_, by simp [render]⟩
              rw [show m + 1 + 1 + (g2 + 1 + 1) = (m + g2 + 3) + 1 from by omega,
                writeLoopF_succ_text (m + g2 + 3) ⟨b1 ++ b2, st, c16, c256⟩
                  (b1 ++ b2) (b1 ++ b2).length hbc hrsc]
              show (writeLoopF (m + g2 + 3)
                  ⟨(b1 ++ b2).drop (b1 ++ b2).length, st, c16, c256⟩).map
                (fun q => (q.1, ⟨b1 ++ b2, st, none⟩ :: q.2)) =
                  some (⟨[], st, c16, c256⟩, [⟨b1 ++ b2, st, none⟩])
              rw [List.drop_length, show m + g2 + 3 = (m + g2 + 2) + 1 from by omega,
                writeLoopF_succ_empty (m + g2 + 2) ⟨[], st, c16, c256⟩ rfl]
              rfl
            · have hidxc : escIdx (b1 ++ b2) = some (j + b1.length) := by
                rw [escIdx_append_of_none b1 b2 hidxn, hj]
                rfl
              by_cases hj0 : j = 0
              · subst hj0
                have hidxc' : escIdx (b1 ++ b2) = some b1.length := by
                  simpa using hidxc
                have hrsc : readStep (b1 ++ b2) = (AnsiToken.TEXT b1, b1.length) := by
                  rw [readStep_eq_text_pre (b1 ++ b2) b1.length hlnec hidxc' (by omega),
                    List.take_left]
                refine ⟨⟨b1, st, none⟩ :: B2, ?_, by simp [render]⟩
                rw [show m + 1 + 1 + g = (m + 1 + g) + 1 from by omega,
                  writeLoopF_succ_text (m + 1 + g) ⟨b1 ++ b2, st, c16, c256⟩
                    b1 b1.length hbc hrsc]
                show (writeLoopF (m + 1 + g) ⟨(b1 ++ b2).drop b1.length, st, c16, c256⟩).map
                  (fun q => (q.1, ⟨b1, st, none⟩ :: q.2)) = some (σ2, ⟨b1, st, none⟩ :: B2)
                rw [List.drop_left,
                  writeLoopF_mono g (m + 1 + g) ⟨b2, st, c16, c256⟩ (σ2, B2) (by omega) h2']
                rfl
              · have hrs2 : readStep b2 = (AnsiToken.TEXT (b2.take j), j) :=
                  readStep_eq_text_pre b2 j hlne2 hj (by omega)
                obtain ⟨g', rfl⟩ : ∃ g', g = g' + 1 := by
                  cases g with
                  | zero => exact absurd h2' (by simp [writeLoopF])
                  | succ x => exact ⟨x, rfl⟩
                rw [writeLoopF_succ_text g' ⟨b2, st, c16, c256⟩ (b2.take j) j hb2 hrs2] at h2'
                have h2'' : (writeLoopF g' ⟨b2.drop j, st, c16, c256⟩).map
                    (fun p => (p.1, ⟨b2.take j, st, none⟩ :: p.2)) = some (σ2, B2) := h2'
                rcases hx2 : writeLoopF g' ⟨b2.drop j, st, c16, c256⟩ with _ | p
                · rw [hx2] at h2''
                  exact absurd h2'' (by simp)
                · rw [hx2] at h2''
                  simp only [Option.map_some'] at h2''
                  have hp2 := Option.some.inj h2''
                  have hσ2 : σ2 = p.1 := (congrArg Prod.fst hp2).symm
                  have hB2 : B2 = ⟨b2.take j, st, none⟩ :: p.2 := (congrArg Prod.snd hp2).symm
                  subst hσ2
                  subst hB2
                  have hrsc : readStep (b1 ++ b2) =
                      (AnsiToken.TEXT (b1 ++ b2.take j), b1.length + j) := by
                    rw [readStep_eq_text_pre (b1 ++ b2) (j + b1.length) hlnec hidxc
                        (by omega),
                      Nat.add_comm j b1.length, List.take_append]
                  refine ⟨⟨b1 ++ b2.take j, st, none⟩ :: p.2, ?_, by simp [render]⟩
                  rw [show m + 1 + 1 + (g' + 1) = (m + g' + 2) + 1 from by omega,
                    writeLoopF_succ_text (m + g' + 2) ⟨b1 ++ b2, st, c16, c256⟩
                      (b1 ++ b2.take j) (b1.length + j) hbc hrsc]
                  show (writeLoopF (m + g' + 2)
                      ⟨(b1 ++ b2).drop (b1.length + j), st, c16, c256⟩).map
                    (fun q => (q.1, ⟨b1 ++ b2.take j, st, none⟩ :: q.2)) =
                      some (p.1, ⟨b1 ++ b2.take j, st, none⟩ :: p.2)
                  rw [List.drop_append,
                    writeLoopF_mono g' (m + g' + 2) ⟨b2.drop j, st, c16, c256⟩ p
                      (by omega) hx2]
                  rfl
        · have hk_lt : k < b1.length := lt_of_le_of_ne hk_le hfull
          have hstab : readStep (b1 ++ b2) = (AnsiToken.TEXT v, k) := by
            rw [readStep_append_stable b1 b2 hlne (by rw [hrs]; simp) (by rw [hrs]; simp)
              (fun v' hv' => by rw [hrs]; exact hk_lt), hrs]
          rw [writeLoopF_succ_text n ⟨b1, st, c16, c256⟩ v k hbne hrs] at h1
          have h1' : (writeLoopF n ⟨b1.drop k, st, c16, c256⟩).map
              (fun p => (p.1, ⟨v, st, none⟩ :: p.2)) = some (σ1, B1) := h1
          rcases hx : writeLoopF n ⟨b1.drop k, st, c16, c256⟩ with _ | p
          · rw [hx] at h1'
            exact absurd h1' (by simp)
          · rw [hx] at h1'
            simp only [Option.map_some'] at h1'
            have hp := Option.some.inj h1'
            have hσ1 : σ1 = p.1 := (congrArg Prod.fst hp).symm
            have hB1 : B1 = ⟨v, st, none⟩ :: p.2 := (congrArg Prod.snd hp).symm
            subst hσ1
            subst hB1
            obtain ⟨B, hB, hr⟩ := ih (b1.drop k) b2 st c16 c256 p.1 σ2 g p.2 B2 hx h2
            refine ⟨⟨v, st, none⟩ :: B, ?_, ?_⟩
            · rw [show n + 1 + g = (n + g) + 1 from by omega,
                writeLoopF_succ_text (n + g) ⟨b1 ++ b2, st, c16, c256⟩ v k hbc hstab]
              show (writeLoopF (n + g) ⟨(b1 ++ b2).drop k, st, c16, c256⟩).map
                (fun q => (q.1, ⟨v, st, none⟩ :: q.2)) = some (σ2, ⟨v, st, none⟩ :: B)
              rw [List.drop_append_of_le_length hk_le, hB]
              rfl
            · rw [render_cons, render_cons, hr, List.append_assoc]

/-- C3 (amended): the identical-block-sequence form of the claim is false
(see the counterexample), but chunk-boundary independence holds per
character: if writing the first `i` characters terminates and writing the
rest from the resulting session terminates, then writing the whole string
in one call terminates too, reaches the same final session state, and its
blocks expand to the same per-character styled output (character, style,
hyperlink) as the two chunked calls' blocks concatenated — the runs differ
only in how characters are grouped into blocks. -/
theorem ansi_c3_amended (s : List Char) (i : Nat) (a1 a2 : Ansi)
    (B1 B2 : List AnsiBlock)
    (h1 : write mkAnsi (s.take i) = some (a1, B1))
    (h2 : write a1 (s.drop i) = some (a2, B2)) :
    ∃ B, write mkAnsi s = some (a2, B) ∧ render B = render B1 ++ render B2 := by
  have h1' : writeLoopF ((s.take i).length + 1)
      ⟨s.take i, defaultStyle, colors16Default, colors256Default⟩ = some (a1, B1) :=
    writeLoopF_adequate _ ⟨s.take i, defaultStyle, colors16Default, colors256Default⟩
      (a1, B1) h1
  have hbuf : a1.buffer = [] := writeLoopF_some_buffer _ _ a1 B1 h1'
  have h2a : writeLoopF (a1.buffer.length + (s.drop i).length + 1)
      { a1 with buffer := a1.buffer ++ s.drop i } = some (a2, B2) := h2
  rw [hbuf] at h2a
  have h2' : writeLoopF ((s.drop i).length + 1) { a1 with buffer := s.drop i } =
      some (a2, B2) :=
    writeLoopF_adequate _ { a1 with buffer := s.drop i } (a2, B2) h2a
  obtain ⟨B, hB, hr⟩ := writeLoopF_compose ((s.take i).length + 1) (s.take i)
    (s.drop i) defaultStyle colors16Default colors256Default a1 a2
    ((s.drop i).length + 1) B1 B2 h1' h2'
  refine ⟨B, ?_, hr⟩
  have hB' := writeLoopF_adequate _ _ _ hB
  rw [List.take_append_drop] at hB'
  exact writeLoopF_mono (s.length + 1) (mkAnsi.buffer.length + s.length + 1)
    ⟨s, defaultStyle, colors16Default, colors256Default⟩ (a2, B)
    (by simp [mkAnsi]) hB'

/-- Witness for `ansi_c3_amended`: the string "ab" split after the first
character; both chunked writes terminate, and the theorem yields the
single write's termination with matching final state and rendering. -/
theorem ansi_c3_amended_witness :
    (write mkAnsi (['a', 'b'].take 1) =
        some (mkAnsi, [⟨['a'], defaultStyle, none⟩]) ∧
      write mkAnsi (['a', 'b'].drop 1) =
        some (mkAnsi, [⟨['b'], defaultStyle, none⟩])) ∧
    ∃ B, write mkAnsi ['a', 'b'] = some (mkAnsi, B) ∧
      render B = render [⟨['a'], defaultStyle, none⟩] ++
        render [⟨['b'], defaultStyle, none⟩] :=
  ⟨⟨rfl, rfl⟩,
    ansi_c3_amended ['a', 'b'] 1 mkAnsi mkAnsi [⟨['a'], defaultStyle, none⟩]
      [⟨['b'], defaultStyle, none⟩] rfl rfl⟩
